import Mathlib

/-!
# Ethereum blockchain parser: ledger and block-ingestion cycle

A shallow embedding of

* `internal/adapters/repositories/inmemrepository.go` (the in-memory ledger),
* `internal/core/services/txparser.go` (the ingestion loop),
* `internal/adapters/handlers/httphandler/httphandler.go` (the HTTP handlers),
* `internal/adapters/blockchain/ethereum.go` (the encoding and decoding of block numbers),
* `pkg/errs/errors.go` (the error sentinels),

followed by theorems about them.

Conventions of the embedding.

* Go's `int` is 64 bits wide.  Block numbers are Lean `Int`s; the one operation the code
  performs on them, the increment of the loop counter, is `incInt64`, which wraps from the
  largest 64-bit value to the smallest as Go's does, and a head read from the chain client
  is a 64-bit value (`Client.headIsInt64`).
* A loop that need not end (the catch-up loop, when its counter wraps) takes the number of
  turns it may make as its first argument and returns `none` when that number is used up.
* A Go method with a pointer receiver that mutates the repository becomes a function
  returning the new repository together with the returned `error` (`none` is `nil`).
* A Go method that only reads returns `Except Error α`.
* `context.Context` arguments and the logger carry no data the results depend on; they are
  dropped.  Locks are dropped as well: every function is the sequential behaviour of one
  call running alone.
-/

namespace TxParser

/-! ## `pkg/errs` -/

/-- The error values that flow through the system: the two sentinels of `pkg/errs`, an error
made from a message alone, and an error that wraps another one (`fmt.Errorf` with `%w`). -/
inductive Error where
  | NotFound
  | AlreadyExist
  | Other (msg : String)
  | Wrap (msg : String) (cause : Error)
  deriving DecidableEq, Repr

/-- `errors.Is`: `err` or an error in its chain of wrapped causes is `target`. -/
def Error.Is : Error → Error → Bool
  | .Wrap msg cause, target => decide (Error.Wrap msg cause = target) || Error.Is cause target
  | err, target => decide (err = target)

namespace errs

/-- `errs.NotFoundErr` -/
def NotFoundErr : Error := Error.NotFound

/-- `errs.AlreadyExistErr` -/
def AlreadyExistErr : Error := Error.AlreadyExist

/-- `errs.IsNotFoundErr` -/
def IsNotFoundErr (err : Error) : Bool := err.Is Error.NotFound

/-- `errs.IsAlreadyExistErr` -/
def IsAlreadyExistErr (err : Error) : Bool := err.Is Error.AlreadyExist

end errs

/-! ## `internal/core/domain` -/

/-- Modelled from the spec: the declaration of `domain.Transaction` is not among the source
files; its five string fields are the ones the spec's data model lists and the ones
`blockResponse.toDomain` and `NewInmemTransactionRepository` fill in. -/
structure Transaction where
  Hash : String
  From : String
  To : String
  Value : String
  BlockNumber : String
  deriving DecidableEq, Repr

/-- `domain.Block` -/
structure Block where
  Number : String
  Transactions : List Transaction
  deriving DecidableEq, Repr

/-! ## `sync.Map` as the repository uses it -/

/-- The `addresses` field is a `sync.Map` from address strings to `*sync.RWMutex`.  The
mutexes hold no data, so the model keeps the keys only: `keys` lists them as they were
stored, and a map holds every key once. -/
structure SyncMap where
  keys : List String
  nodup : keys.Nodup

namespace SyncMap

/-- `new(sync.Map)` -/
def empty : SyncMap := ⟨[], List.nodup_nil⟩

/-- `Load`: the `ok` flag (the loaded mutex itself is not modelled). -/
def Load (m : SyncMap) (key : String) : Bool := decide (key ∈ m.keys)

/-- `LoadOrStore`: the map afterwards and the `loaded` flag.  A key that is present is left
alone; a new key is added. -/
def LoadOrStore (m : SyncMap) (key : String) : SyncMap × Bool :=
  if h : key ∈ m.keys then (m, true)
  else
    (⟨m.keys ++ [key],
      List.nodup_append.mpr ⟨m.nodup, List.nodup_singleton key, fun _ ha hb =>
        h (List.mem_singleton.mp hb ▸ ha)⟩⟩, false)

/-- `Store` (used by the constructor only, on a key that may or may not be present). -/
def Store (m : SyncMap) (key : String) : SyncMap := (m.LoadOrStore key).1

/-- `Range` with a callback that always returns `true`: the keys in the order they are
visited.  `sync.Map` does not say in which order `Range` visits the keys, and the order may
differ from one call to the next, so the order is an input: `visit` is the order of this
call.  Any arrangement of the keys can be given; an argument that is not an arrangement of
the keys stands for the order in which the keys were stored. -/
def Range (m : SyncMap) (visit : List String) : List String :=
  if visit.Perm m.keys then visit else m.keys

end SyncMap

/-! ## `inmemrepository.go` -/

/-- `inMemRepository`.  `transactions` is the Go map: `none` is an absent key. -/
structure inMemRepository where
  addresses : SyncMap
  transactions : String → Option (List Transaction)
  blockNumber : Int

/-- `inMemTransaction` embeds `*inMemRepository`: the write scope is the repository itself,
and whatever is done through the scope is done to the repository. -/
structure inMemTransaction where
  inMemRepository : inMemRepository

/-- The one seeded transaction of `NewInmemTransactionRepository`. -/
def seedTransaction : Transaction :=
  { Hash := "00000", From := "0x123", To := "0x456", Value := "hello world!",
    BlockNumber := "20000000" }

/-- `NewInmemTransactionRepository` -/
def NewInmemTransactionRepository : inMemRepository :=
  { blockNumber := 0
    addresses := SyncMap.empty.Store "0x123"
    transactions := fun a => if a = "0x123" then some [seedTransaction] else none }

namespace inMemRepository

/-- `tr.transactions[address]`: indexing a Go map, `nil` (the empty slice) for an absent key. -/
def bucket (tr : inMemRepository) (address : String) : List Transaction :=
  (tr.transactions address).getD []

/-- `NewTransaction` -/
def NewTransaction (tr : inMemRepository) : Except Error inMemTransaction :=
  .ok ⟨tr⟩

/-- `GetBlockNumber` -/
def GetBlockNumber (tr : inMemRepository) : Except Error Int :=
  .ok tr.blockNumber

/-- `SetBlockNumber` -/
def SetBlockNumber (tr : inMemRepository) (blockNumber : Int) :
    inMemRepository × Option Error :=
  ({ tr with blockNumber := blockNumber }, none)

/-- `GetTransactions` -/
def GetTransactions (tr : inMemRepository) (address : String) :
    Except Error (List Transaction) :=
  if tr.addresses.Load address = false then
    .error errs.NotFoundErr
  else
    let transactions := tr.bucket address
    if transactions.length = 0 then
      .ok []
    else
      .ok transactions

/-- `AddTransaction` -/
def AddTransaction (tr : inMemRepository) (address : String) (transaction : Transaction) :
    inMemRepository × Option Error :=
  if tr.addresses.Load address = false then
    (tr, some errs.NotFoundErr)
  else
    let tr1 : inMemRepository :=
      if tr.transactions address = none then
        { tr with transactions := Function.update tr.transactions address (some []) }
      else tr
    ({ tr1 with
        transactions :=
          Function.update tr1.transactions address (some (tr1.bucket address ++ [transaction])) },
      none)

/-- `AddAddress` -/
def AddAddress (tr : inMemRepository) (address : String) : inMemRepository × Option Error :=
  match tr.addresses.LoadOrStore address with
  | (m, true) => ({ tr with addresses := m }, some errs.AlreadyExistErr)
  | (m, false) => ({ tr with addresses := m }, none)

/-- `GetAddresses`; `visit` is the order in which `Range` visits the keys in this call. -/
def GetAddresses (tr : inMemRepository) (visit : List String) : Except Error (List String) :=
  .ok (tr.addresses.Range visit)

end inMemRepository

namespace inMemTransaction

/-- `AddTransaction` promoted from the embedded repository. -/
def AddTransaction (tx : inMemTransaction) (address : String) (transaction : Transaction) :
    inMemTransaction × Option Error :=
  let r := tx.inMemRepository.AddTransaction address transaction
  (⟨r.1⟩, r.2)

/-- `SetBlockNumber` promoted from the embedded repository. -/
def SetBlockNumber (tx : inMemTransaction) (blockNumber : Int) :
    inMemTransaction × Option Error :=
  let r := tx.inMemRepository.SetBlockNumber blockNumber
  (⟨r.1⟩, r.2)

/-- `Commit` -/
def Commit (tx : inMemTransaction) : inMemTransaction × Option Error := (tx, none)

/-- `Rollback` -/
def Rollback (tx : inMemTransaction) : inMemTransaction × Option Error := (tx, none)

end inMemTransaction

/-! ## Go's `int` -/

/-- The smallest value of a 64-bit `int`. -/
def minInt64 : Int := -(2 ^ 63)

/-- The largest value of a 64-bit `int`. -/
def maxInt64 : Int := 2 ^ 63 - 1

/-- The values a Go `int` can hold. -/
def isInt64 (n : Int) : Prop := minInt64 ≤ n ∧ n ≤ maxInt64

instance (n : Int) : Decidable (isInt64 n) :=
  inferInstanceAs (Decidable (minInt64 ≤ n ∧ n ≤ maxInt64))

/-- The statement `n++` on a 64-bit `int`: one more, and the largest value wraps round to the
smallest (for a 64-bit `n` this is `(n + 1 + 2 ^ 63) % 2 ^ 64 - 2 ^ 63`). -/
def incInt64 (n : Int) : Int := if n = maxInt64 then minInt64 else n + 1

/-! ## `blockchain.Client` -/

/-- The `blockchain.Client` interface as one ingestion cycle sees it: the answer to
`FetchCurrentBlock`, a Go `int` when it is a value, and, for every block number, the answer
to `FetchBlockByNumber`.  A cycle asks for the head once and, as long as its counter has not
gone all the way round, for each block number at most once, so any client, however it
behaves, is one such value per cycle. -/
structure Client where
  FetchCurrentBlock : Except Error Int
  FetchBlockByNumber : Int → Except Error Block
  headIsInt64 : ∀ H, FetchCurrentBlock = .ok H → isInt64 H

/-! ## `strings` and `strconv` as `FetchCurrentBlock` uses them -/

/-- `strings.Replace(s, "0x", "", 1)` on the characters of `s`: the first occurrence of `0x`
is removed. -/
def removeFirst0x : List Char → List Char
  | [] => []
  | [c] => [c]
  | c :: d :: rest => if c = '0' ∧ d = 'x' then rest else c :: removeFirst0x (d :: rest)

/-- The two errors of `strconv`: `ErrSyntax` and `ErrRange`. -/
inductive NumError where
  | Syntax
  | Range
  deriving DecidableEq, Repr

/-- The value `strconv.ParseUint` gives a byte: a decimal digit, or a letter (either case)
counting from ten. -/
def digitVal (c : Char) : Option Nat :=
  if 48 ≤ c.toNat ∧ c.toNat ≤ 57 then some (c.toNat - 48)
  else if 97 ≤ c.toNat ∧ c.toNat ≤ 122 then some (c.toNat - 97 + 10)
  else if 65 ≤ c.toNat ∧ c.toNat ≤ 90 then some (c.toNat - 65 + 10)
  else none

/-- The digit loop of `strconv.ParseUint(s, 16, 64)`; `n` is the value read so far. -/
def parseUintLoop : List Char → Nat → Except NumError Nat
  | [], n => .ok n
  | c :: rest, n =>
    match digitVal c with
    | none => .error .Syntax
    | some d =>
      if d ≥ 16 then .error .Syntax
      else if n ≥ 2 ^ 60 then .error .Range
      else if n * 16 + d > 2 ^ 64 - 1 then .error .Range
      else parseUintLoop rest (n * 16 + d)

/-- `strconv.ParseUint(s, 16, 64)` -/
def ParseUint16 (s : List Char) : Except NumError Nat :=
  if s = [] then .error .Syntax else parseUintLoop s 0

/-- `strconv.ParseInt(s, 16, 64)` -/
def ParseInt16 (s : List Char) : Except NumError Int :=
  match s with
  | [] => .error .Syntax
  | c :: rest =>
    let neg : Bool := decide (c = '-')
    let digits : List Char := if c = '+' ∨ c = '-' then rest else c :: rest
    match ParseUint16 digits with
    | .error e => .error e
    | .ok un =>
      if neg = false ∧ un ≥ 2 ^ 63 then .error .Range
      else if neg = true ∧ un > 2 ^ 63 then .error .Range
      else .ok (if neg then -(un : Int) else (un : Int))

/-- The decoding of the `result` string in `ethereumClient.FetchCurrentBlock` (ethereum.go,
lines 62-68): drop the first `0x`, parse the rest as a base-16 signed 64-bit integer. -/
def decodeBlockNumber (result : String) : Except Error Int :=
  match ParseInt16 (removeFirst0x result.toList) with
  | .error .Syntax => .error (Error.Wrap "error parsing block number" (Error.Other "invalid syntax"))
  | .error .Range =>
    .error (Error.Wrap "error parsing block number" (Error.Other "value out of range"))
  | .ok blockNumber => .ok blockNumber

/-! ## `txparser.go` -/

/-- The `return` by which `processNewBlocks` is left. -/
inductive CycleExit where
  | headFetchFailed
  | getCurrentBlockFailed
  | upToDate
  | getAddressesFailed
  | newTransactionFailed
  | blockFetchFailed (block : Int)
  | addTransactionFailed (block : Int)
  | setBlockNumberFailed (block : Int)
  | commitFailed
  | committed
  deriving DecidableEq, Repr

/-- What one call of `processNewBlocks` leaves behind: the repository, the block numbers it
passed to `FetchBlockByNumber` (in call order), and the `return` it took. -/
structure CycleResult where
  repo : inMemRepository
  requested : List Int
  exit : CycleExit

/-- The loop over `subscribedAddresses` for one transaction (txparser.go, lines 125-135).
An error of `AddTransaction` stops it. -/
def addToSubscribers (transaction : Transaction) :
    List String → inMemTransaction → inMemTransaction × Option Error
  | [], repoTx => (repoTx, none)
  | addr :: rest, repoTx =>
    if transaction.From = addr ∨ transaction.To = addr then
      match repoTx.AddTransaction addr transaction with
      | (repoTx1, some err) => (repoTx1, some err)
      | (repoTx1, none) => addToSubscribers transaction rest repoTx1
    else
      addToSubscribers transaction rest repoTx

/-- The loop over `blockData.Transactions` (txparser.go, lines 122-136). -/
def processTransactions (subscribedAddresses : List String) :
    List Transaction → inMemTransaction → inMemTransaction × Option Error
  | [], repoTx => (repoTx, none)
  | transaction :: rest, repoTx =>
    match addToSubscribers transaction subscribedAddresses repoTx with
    | (repoTx1, some err) => (repoTx1, some err)
    | (repoTx1, none) => processTransactions subscribedAddresses rest repoTx1

/-- The catch-up loop `for block := ...; block <= lastMinedBlock; block++` (txparser.go,
lines 114-146) followed by the commit (lines 149-151).  The first numeric argument is the
number of turns the loop may still make, the second the loop counter `block`; `requested`
collects the block numbers asked for so far.  The counter is a 64-bit `int`: after the
largest value comes the smallest, and then the test `block <= lastMinedBlock` holds again.
The result is `none` when the turns are used up before the loop is left. -/
def catchUp (bcClient : Client) (subscribedAddresses : List String) (lastMinedBlock : Int) :
    Nat → Int → inMemTransaction → List Int → Option CycleResult
  | 0, _, _, _ => none
  | fuel + 1, block, repoTx, requested =>
    if block ≤ lastMinedBlock then
      match bcClient.FetchBlockByNumber block with
      | .error _ =>
        some ⟨repoTx.inMemRepository, requested ++ [block], .blockFetchFailed block⟩
      | .ok blockData =>
        match processTransactions subscribedAddresses blockData.Transactions repoTx with
        | (repoTx1, some _) =>
          some ⟨(repoTx1.Rollback).1.inMemRepository, requested ++ [block],
            .addTransactionFailed block⟩
        | (repoTx1, none) =>
          match repoTx1.SetBlockNumber block with
          | (repoTx2, some _) =>
            some ⟨(repoTx2.Rollback).1.inMemRepository, requested ++ [block],
              .setBlockNumberFailed block⟩
          | (repoTx2, none) =>
            catchUp bcClient subscribedAddresses lastMinedBlock fuel (incInt64 block) repoTx2
              (requested ++ [block])
    else
      match repoTx.Commit with
      | (repoTx1, some _) => some ⟨repoTx1.inMemRepository, requested, .commitFailed⟩
      | (repoTx1, none) => some ⟨repoTx1.inMemRepository, requested, .committed⟩

/-- `transactionParser.processNewBlocks`: one ingestion cycle.  `fuel` is the number of turns
the catch-up loop may make and `visit` the order in which `GetAddresses` lists the
addresses in this cycle; the result is `none` when the loop is not left within `fuel`
turns. -/
def processNewBlocks (fuel : Nat) (bcClient : Client) (visit : List String)
    (repo : inMemRepository) : Option CycleResult :=
  match bcClient.FetchCurrentBlock with
  | .error _ => some ⟨repo, [], .headFetchFailed⟩
  | .ok lastMinedBlock =>
    match repo.GetBlockNumber with
    | .error _ => some ⟨repo, [], .getCurrentBlockFailed⟩
    | .ok lastProcessedBlock =>
      if lastMinedBlock ≤ lastProcessedBlock then
        some ⟨repo, [], .upToDate⟩
      else
        match repo.GetAddresses visit with
        | .error _ => some ⟨repo, [], .getAddressesFailed⟩
        | .ok subscribedAddresses =>
          match repo.NewTransaction with
          | .error _ => some ⟨repo, [], .newTransactionFailed⟩
          | .ok repoTx =>
            catchUp bcClient subscribedAddresses lastMinedBlock fuel
              (incInt64 lastProcessedBlock) repoTx []

/-- `transactionParser.updateBlockNumber`: the startup step.  The result is the repository,
the block numbers requested from the client (none) and the returned error. -/
def updateBlockNumber (bcClient : Client) (repo : inMemRepository) :
    inMemRepository × List Int × Option Error :=
  match bcClient.FetchCurrentBlock with
  | .error err => (repo, [], some (Error.Wrap "could not fetch current block number" err))
  | .ok blockNumber =>
    match repo.SetBlockNumber blockNumber with
    | (repo1, some err) => (repo1, [], some (Error.Wrap "could not set block number" err))
    | (repo1, none) => (repo1, [], none)

/-- The ticker loop of `ProcessNewBlocks`: one `processNewBlocks` per tick, until the context
is done.  `ticks` holds, for each tick that fires before cancellation, the client as that
cycle sees it and the order in which that cycle's `GetAddresses` lists the addresses; every
cycle may make `fuel` turns of its catch-up loop.  The result is the final repository and
the results of the cycles run, `none` when a cycle does not return. -/
def tickLoop (fuel : Nat) :
    List (Client × List String) → inMemRepository →
      Option (inMemRepository × List CycleResult)
  | [], repo => some (repo, [])
  | (bcClient, visit) :: rest, repo =>
    match processNewBlocks fuel bcClient visit repo with
    | none => none
    | some r =>
      match tickLoop fuel rest r.repo with
      | none => none
      | some out => some (out.1, r :: out.2)

/-- `transactionParser.ProcessNewBlocks`: `boot` is the client as `updateBlockNumber` sees
it, `ticks` the ticks that fire before the context is cancelled.  Returns the repository,
the cycles run and the returned error, `none` when a cycle does not return. -/
def ProcessNewBlocks (fuel : Nat) (boot : Client) (ticks : List (Client × List String))
    (repo : inMemRepository) :
    Option (inMemRepository × List CycleResult × Option Error) :=
  match updateBlockNumber boot repo with
  | (repo1, _, some err) => some (repo1, [], some err)
  | (repo1, _, none) =>
    match tickLoop fuel ticks repo1 with
    | none => none
    | some out => some (out.1, out.2, none)

/-- `transactionParser.GetCurrentBlock` -/
def GetCurrentBlock (repo : inMemRepository) : Except Error Int := repo.GetBlockNumber

/-- `transactionParser.Subscribe` -/
def Subscribe (repo : inMemRepository) (address : String) : inMemRepository × Option Error :=
  repo.AddAddress address

/-- `transactionParser.GetTransactions` -/
def GetTransactions (repo : inMemRepository) (address : String) :
    Except Error (List Transaction) :=
  repo.GetTransactions address

/-! ## Vocabulary of the statements -/

deriving instance DecidableEq for Except

/-- An address is registered when the `addresses` map holds it. -/
def inMemRepository.registered (tr : inMemRepository) (address : String) : Prop :=
  address ∈ tr.addresses.keys

instance (tr : inMemRepository) (address : String) : Decidable (tr.registered address) :=
  inferInstanceAs (Decidable (address ∈ tr.addresses.keys))

/-- The transactions of a list that have `address` as sender or receiver, in list order. -/
def matching (address : String) (txs : List Transaction) : List Transaction :=
  txs.filter fun t => decide (t.From = address ∨ t.To = address)

/-- The transactions of a sequence of blocks that touch `address`: blocks in sequence order,
in-block order kept. -/
def matchingOf (address : String) (blocks : List Block) : List Transaction :=
  blocks.flatMap fun b => matching address b.Transactions

/-- The blocks `lo, lo + 1, ..., lo + n - 1` of a chain. -/
def blocksFrom (chain : Int → Block) (lo : Int) (n : Nat) : List Block :=
  (List.range n).map fun (i : Nat) => chain (lo + (i : Int))

/-- What `subscribedAddresses` adds to the bucket of `x` out of the transactions `txs`. -/
def appended (subs : List String) (txs : List Transaction) (x : String) : List Transaction :=
  if x ∈ subs then matching x txs else []

/-- The blocks the catch-up loop obtains within `fuel` turns when its counter stands at
`block`: the answers of the client, in the order asked, up to its first error or to the
first counter value above the head.  It follows the loop of `catchUp` turn by turn. -/
def loopBlocks (bcClient : Client) (lastMinedBlock : Int) : Nat → Int → List Block
  | 0, _ => []
  | fuel + 1, block =>
    if block ≤ lastMinedBlock then
      match bcClient.FetchBlockByNumber block with
      | .error _ => []
      | .ok blockData => blockData :: loopBlocks bcClient lastMinedBlock fuel (incInt64 block)
    else []

/-- The write scope after `n` turns of the catch-up loop over the blocks
`chain lo, ..., chain (lo + n - 1)`, none of them the largest `int`: each block's
transactions are handed to the subscribers and the checkpoint is set to its number. -/
def afterBlocks (subs : List String) (chain : Int → Block) :
    Nat → Int → inMemTransaction → inMemTransaction
  | 0, _, repoTx => repoTx
  | n + 1, lo, repoTx =>
    afterBlocks subs chain n (lo + 1)
      ((processTransactions subs (chain lo).Transactions repoTx).1.SetBlockNumber lo).1

/-- The chain as a client serves it: its answer for each number, the empty block where the
fetch fails. -/
def servedChain (bcClient : Client) (n : Int) : Block :=
  match bcClient.FetchBlockByNumber n with
  | .ok blockData => blockData
  | .error _ => ⟨"", []⟩

/-- How many of the `n` blocks `lo, lo + 1, ...` the client serves before its first error. -/
def servedCount (bcClient : Client) : Nat → Int → Nat
  | 0, _ => 0
  | n + 1, lo =>
    match bcClient.FetchBlockByNumber lo with
    | .error _ => 0
    | .ok _ => servedCount bcClient n (lo + 1) + 1

/-- The error `err` is `target` or wraps it, directly or through further wrapping errors:
what `errors.Is` looks for. -/
inductive Error.isOrWraps : Error → Error → Prop where
  | self (err : Error) : Error.isOrWraps err err
  | wrap (msg : String) (cause target : Error) :
      Error.isOrWraps cause target → Error.isOrWraps (Error.Wrap msg cause) target

/-- The ledger states the program can be in: the freshly created ledger, and what address
registrations, the startup step and ingestion cycles that return (against any client, with
any visiting order of the addresses) make of it. -/
inductive Reachable : inMemRepository → Prop where
  | fresh : Reachable NewInmemTransactionRepository
  | register (repo : inMemRepository) (address : String) :
      Reachable repo → Reachable (repo.AddAddress address).1
  | bootstrap (repo : inMemRepository) (bcClient : Client) :
      Reachable repo → Reachable (updateBlockNumber bcClient repo).1
  | cycle (repo : inMemRepository) (bcClient : Client) (fuel : Nat) (visit : List String)
      (res : CycleResult) :
      Reachable repo → processNewBlocks fuel bcClient visit repo = some res →
      Reachable res.repo

/-- The client labels what it serves: every transaction of the block it answers for number
`n` carries a `BlockNumber` that decodes to `n`. -/
def Client.labelsBlocks (bcClient : Client) : Prop :=
  ∀ n blockData, bcClient.FetchBlockByNumber n = .ok blockData →
    ∀ t ∈ blockData.Transactions, decodeBlockNumber t.BlockNumber = .ok n

/-- The head the client reports, when it reports one, is below the largest `int`. -/
def Client.headBelowMax (bcClient : Client) : Prop :=
  ∀ H, bcClient.FetchCurrentBlock = .ok H → H < maxInt64

/-- The ledger before `ProcessNewBlocks` has run its startup step: freshly created, with
addresses registered since. -/
inductive BeforeStart : inMemRepository → Prop where
  | fresh : BeforeStart NewInmemTransactionRepository
  | register (repo : inMemRepository) (address : String) :
      BeforeStart repo → BeforeStart (repo.AddAddress address).1

/-- The ledger once `ProcessNewBlocks` runs: the startup step has succeeded, once, and since
then addresses have been registered and cycles have run against clients that label what
they serve and report a head below the largest `int`. -/
inductive Started : inMemRepository → Prop where
  | boot (repo : inMemRepository) (bcClient : Client) :
      BeforeStart repo → (updateBlockNumber bcClient repo).2.2 = none →
      Started (updateBlockNumber bcClient repo).1
  | register (repo : inMemRepository) (address : String) :
      Started repo → Started (repo.AddAddress address).1
  | cycle (repo : inMemRepository) (bcClient : Client) (fuel : Nat) (visit : List String)
      (res : CycleResult) :
      Started repo → bcClient.labelsBlocks → bcClient.headBelowMax →
      processNewBlocks fuel bcClient visit repo = some res → Started res.repo

/-! ## Concrete ledgers and clients used as examples -/

/-- The freshly created ledger with its checkpoint at block 4. -/
def ledgerAt4 : inMemRepository := (NewInmemTransactionRepository.SetBlockNumber 4).1

/-- A transaction sent by the seeded address `0x123`, carried by block 5 of `chain567`. -/
def txOfBlock5 : Transaction :=
  { Hash := "h5", From := "0x123", To := "0x999", Value := "1", BlockNumber := "0x5" }

/-- A chain whose block 5 holds `txOfBlock5` and whose other blocks are empty. -/
def chain567 (n : Int) : Block :=
  if n = 5 then ⟨"0x5", [txOfBlock5]⟩ else ⟨"", []⟩

/-- A client with head 7 that serves `chain567` except for block 7, whose fetch fails. -/
def clientFailingAt7 : Client :=
  { FetchCurrentBlock := .ok 7
    FetchBlockByNumber := fun n =>
      if n = 7 then .error (Error.Other "could not make request") else .ok (chain567 n)
    headIsInt64 := fun _ h => by cases h; decide }

/-- A client with head 7 that serves every block of `chain567`. -/
def clientServing7 : Client :=
  { FetchCurrentBlock := .ok 7
    FetchBlockByNumber := fun n => .ok (chain567 n)
    headIsInt64 := fun _ h => by cases h; decide }

/-- The transaction of the scenario: from `0xA` to `0xB`, hash `h1`. -/
def txH1 : Transaction :=
  { Hash := "h1", From := "0xA", To := "0xB", Value := "1", BlockNumber := "0xa" }

/-- A chain whose block 10 holds `txH1` and whose other blocks are empty. -/
def chain10 (n : Int) : Block :=
  if n = 10 then ⟨"0xa", [txH1]⟩ else ⟨"", []⟩

/-- A client with head 10 that serves every block of `chain10`. -/
def clientServing10 : Client :=
  { FetchCurrentBlock := .ok 10
    FetchBlockByNumber := fun n => .ok (chain10 n)
    headIsInt64 := fun _ h => by cases h; decide }

/-- A client whose head is block 3. -/
def clientHead3 : Client :=
  { FetchCurrentBlock := .ok 3
    FetchBlockByNumber := fun _ => .error (Error.Other "could not make request")
    headIsInt64 := fun _ h => by cases h; decide }

/-- A transaction of `0x123` that says it belongs to block 100 (`0x64`). -/
def txLabelled100 : Transaction :=
  { Hash := "h9", From := "0x123", To := "0x999", Value := "1", BlockNumber := "0x64" }

/-- A client with head 1 whose block 1 holds `txLabelled100`. -/
def clientMislabelling : Client :=
  { FetchCurrentBlock := .ok 1
    FetchBlockByNumber := fun _ => .ok ⟨"0x1", [txLabelled100]⟩
    headIsInt64 := fun _ h => by cases h; decide }

/-- A client with head 10 that serves `chain10`, each transaction labelled with its block. -/
def clientLabelling10 : Client :=
  { FetchCurrentBlock := .ok 10
    FetchBlockByNumber := fun n =>
      if n = 10 then .ok (chain10 n) else .ok ⟨"", []⟩
    headIsInt64 := fun _ h => by cases h; decide }

/-- A client whose head cannot be read. -/
def clientDown : Client :=
  { FetchCurrentBlock := .error (Error.Other "could not make request")
    FetchBlockByNumber := fun _ => .error (Error.Other "could not make request")
    headIsInt64 := fun _ h => by cases h }

/-- A client whose head is block 5. -/
def clientHead5 : Client :=
  { FetchCurrentBlock := .ok 5
    FetchBlockByNumber := fun _ => .error (Error.Other "could not make request")
    headIsInt64 := fun _ h => by cases h; decide }

/-- The freshly created ledger with its checkpoint one below the largest `int`. -/
def ledgerBelowMax : inMemRepository :=
  (NewInmemTransactionRepository.SetBlockNumber (maxInt64 - 1)).1

/-- A transaction of `0x123` in the block whose number is the largest `int`. -/
def txAtMax : Transaction :=
  { Hash := "hmax", From := "0x123", To := "0x999", Value := "1",
    BlockNumber := "0x7fffffffffffffff" }

/-- A transaction of `0x123` in what the client answers for the smallest `int`. -/
def txAtMin : Transaction :=
  { Hash := "hmin", From := "0x999", To := "0x123", Value := "2",
    BlockNumber := "-0x8000000000000000" }

/-- A client whose head is the largest `int`.  It serves that block, answers the request for
the smallest `int` as well, and fails on every other number. -/
def clientAtMaxInt64 : Client :=
  { FetchCurrentBlock := .ok maxInt64
    FetchBlockByNumber := fun n =>
      if n = maxInt64 then .ok ⟨"0x7fffffffffffffff", [txAtMax]⟩
      else if n = minInt64 then .ok ⟨"", [txAtMin]⟩
      else .error (Error.Other "could not make request")
    headIsInt64 := fun _ h => by cases h; decide }

/-- A call made through a write scope: `AddTransaction` or `SetBlockNumber`. -/
inductive ScopeCall where
  | AddTransaction (address : String) (transaction : Transaction)
  | SetBlockNumber (blockNumber : Int)

/-- One call made on the repository itself. -/
def inMemRepository.call (tr : inMemRepository) : ScopeCall → inMemRepository × Option Error
  | .AddTransaction address transaction => tr.AddTransaction address transaction
  | .SetBlockNumber blockNumber => tr.SetBlockNumber blockNumber

/-- A sequence of calls made on the repository itself, whatever each one returns. -/
def inMemRepository.calls (tr : inMemRepository) : List ScopeCall → inMemRepository
  | [] => tr
  | c :: rest => inMemRepository.calls (tr.call c).1 rest

/-- One call made through the write scope. -/
def inMemTransaction.call (tx : inMemTransaction) : ScopeCall → inMemTransaction × Option Error
  | .AddTransaction address transaction => tx.AddTransaction address transaction
  | .SetBlockNumber blockNumber => tx.SetBlockNumber blockNumber

/-- A sequence of calls made through the write scope, whatever each one returns. -/
def inMemTransaction.calls (tx : inMemTransaction) : List ScopeCall → inMemTransaction
  | [] => tx
  | c :: rest => inMemTransaction.calls (tx.call c).1 rest

/-- The repository of the repository tests: `0x123` registered, no transaction stored. -/
def ledgerOfTest : inMemRepository :=
  { blockNumber := 0
    addresses := SyncMap.empty.Store "0x123"
    transactions := fun _ => none }

/-- The transaction of the repository tests. -/
def txHash1 : Transaction :=
  { Hash := "hash1", From := "from1", To := "to1", Value := "100", BlockNumber := "1" }

/-- The JSON values `encoding/json` writes for the responses of the handlers. -/
inductive Json where
  | null
  | str (s : String)
  | num (n : Int)
  | arr (items : List Json)
  | obj (fields : List (String × Json))

/-- One write to the response body: a text line of `http.Error` (the message followed by a
newline) or a value written by `json.NewEncoder(w).Encode`. -/
inductive Written where
  | text (line : String)
  | json (value : Json)

/-- The request as the handlers read it: `r.Method` and the parsed query `r.URL.Query()`
(`url.Values`, the values of each key in order). -/
structure Request where
  Method : String
  Query : String → List String

/-- `url.Values.Get`: the first value of the key, the empty string when there is none. -/
def Request.queryGet (r : Request) (key : String) : String :=
  match r.Query key with
  | [] => ""
  | v :: _ => v

/-- The response writer, as `httptest.ResponseRecorder` records it: the `Content-Type` header,
whether the header was sent, the status code and the body writes in order. -/
structure ResponseRecorder where
  ContentType : Option String
  wroteHeader : Bool
  Code : Nat
  Body : List Written

/-- `httptest.NewRecorder` -/
def NewRecorder : ResponseRecorder :=
  { ContentType := none, wroteHeader := false, Code := 200, Body := [] }

namespace ResponseRecorder

/-- `w.Header().Set("Content-Type", v)` -/
def setContentType (w : ResponseRecorder) (v : String) : ResponseRecorder :=
  { w with ContentType := some v }

/-- `WriteHeader`: the first call sets the status, later calls are ignored. -/
def WriteHeader (w : ResponseRecorder) (code : Nat) : ResponseRecorder :=
  if w.wroteHeader then w else { w with Code := code, wroteHeader := true }

/-- `Write`: sends status 200 first when no header was sent yet. -/
def Write (w : ResponseRecorder) (data : Written) : ResponseRecorder :=
  let w1 := if w.wroteHeader then w else w.WriteHeader 200
  { w1 with Body := w1.Body ++ [data] }

end ResponseRecorder

/-- `http.Error`: plain-text content type, the status, the message as one line. -/
def httpError (w : ResponseRecorder) (error : String) (code : Nat) : ResponseRecorder :=
  ((w.setContentType "text/plain; charset=utf-8").WriteHeader code).Write
    (Written.text (error ++ "\n"))

/-- `Response`, the JSON envelope of the handlers; `Data` is `none` for a nil `any`. -/
structure Response where
  Msg : String
  Data : Option Json

/-- The encoding of `Response`: both fields are `omitempty`. -/
def Response.toJson (resp : Response) : Json :=
  Json.obj ((if resp.Msg = "" then [] else [("msg", Json.str resp.Msg)])
    ++ (match resp.Data with
        | none => []
        | some d => [("data", d)]))

/-- `json.NewEncoder(w).Encode(v)` on the recorder: the value is written; the recorder takes
every write, so no error comes back. -/
def encode (w : ResponseRecorder) (v : Json) : ResponseRecorder × Option Error :=
  (w.Write (Written.json v), none)

/-- Modelled from the spec: the JSON field names of `domain.Transaction` (its declaration is
not among the source files) are `hash`, `from`, `to`, `value`, `blockNumber`, as in the
query interface of the spec and in the expected bodies of `TestTransactionsHandler`. -/
def Transaction.toJson (t : Transaction) : Json :=
  Json.obj [("hash", Json.str t.Hash), ("from", Json.str t.From), ("to", Json.str t.To),
    ("value", Json.str t.Value), ("blockNumber", Json.str t.BlockNumber)]

/-- The encoding of a `[]domain.Transaction`: `null` for a nil slice (`none`), otherwise the
array of the encoded transactions in slice order. -/
def transactionsToJson : Option (List Transaction) → Json
  | none => Json.null
  | some txs => Json.arr (txs.map Transaction.toJson)

/-- The `services.TransactionParser` interface as the handlers use it, over a service state
`σ`.  Each method returns the state afterwards and its Go results: the value and the error
(`none` is `nil`; a nil slice is `none`). -/
structure TransactionParser (σ : Type) where
  GetCurrentBlock : σ → σ × Int × Option Error
  Subscribe : σ → String → σ × Option Error
  GetTransactions : σ → String → σ × Option (List Transaction) × Option Error

/-- A call a handler makes on the service. -/
inductive ServiceCall where
  | GetCurrentBlock
  | Subscribe (address : String)
  | GetTransactions (address : String)
  deriving DecidableEq, Repr

/-- What a handler leaves behind: the response, the service state and the calls it made on
the service, in order. -/
structure Handled (σ : Type) where
  w : ResponseRecorder
  svc : σ
  calls : List ServiceCall

/-- `HttpHandler.getCurrentBlockNumber` -/
def getCurrentBlockNumber {σ : Type} (txParser : TransactionParser σ) (svc : σ)
    (w : ResponseRecorder) (r : Request) : Handled σ :=
  if r.Method ≠ "GET" then
    ⟨httpError w "method not allowed" 405, svc, []⟩
  else
    let w1 := w.setContentType "application/json"
    match txParser.GetCurrentBlock svc with
    | (svc1, _, some _) => ⟨httpError w1 "internal server error" 500, svc1, [.GetCurrentBlock]⟩
    | (svc1, currentBlock, none) =>
      match encode w1 (Response.toJson
          ⟨"success", some (Json.obj [("currentBlock", Json.num currentBlock)])⟩) with
      | (w2, some _) => ⟨httpError w2 "internal server error" 500, svc1, [.GetCurrentBlock]⟩
      | (w2, none) => ⟨w2, svc1, [.GetCurrentBlock]⟩

/-- `HttpHandler.subscribeToAddress` -/
def subscribeToAddress {σ : Type} (txParser : TransactionParser σ) (svc : σ)
    (w : ResponseRecorder) (r : Request) : Handled σ :=
  if r.Method ≠ "POST" then
    ⟨httpError w "method not allowed" 405, svc, []⟩
  else
    let w1 := w.setContentType "application/json"
    let address := r.queryGet "address"
    if address = "" then
      ⟨httpError w1 "address query param is required" 400, svc, []⟩
    else
      match txParser.Subscribe svc address with
      | (svc1, some err) =>
        if errs.IsAlreadyExistErr err then
          ⟨httpError w1 "provided address is already subscribed" 409, svc1,
            [.Subscribe address]⟩
        else
          ⟨httpError w1 "internal server error" 500, svc1, [.Subscribe address]⟩
      | (svc1, none) =>
        match encode w1 (Response.toJson ⟨"success", none⟩) with
        | (w2, some _) => ⟨httpError w2 "internal server error" 500, svc1, [.Subscribe address]⟩
        | (w2, none) => ⟨w2, svc1, [.Subscribe address]⟩

/-- `HttpHandler.getTransactionsByAddress` -/
def getTransactionsByAddress {σ : Type} (txParser : TransactionParser σ) (svc : σ)
    (w : ResponseRecorder) (r : Request) : Handled σ :=
  if r.Method ≠ "GET" then
    ⟨httpError w "method not allowed" 405, svc, []⟩
  else
    let w1 := w.setContentType "application/json"
    let address := r.queryGet "address"
    if address = "" then
      ⟨httpError w1 "address query param is required" 400, svc, []⟩
    else
      match txParser.GetTransactions svc address with
      | (svc1, _, some err) =>
        if errs.IsNotFoundErr err then
          ⟨httpError w1 "the address does not exist in our records" 404, svc1,
            [.GetTransactions address]⟩
        else
          ⟨httpError w1 "internal server error" 500, svc1, [.GetTransactions address]⟩
      | (svc1, transactions, none) =>
        match encode w1 (Response.toJson
            ⟨"success", some (Json.obj [("transactions", transactionsToJson transactions)])⟩) with
        | (w2, some _) =>
          ⟨httpError w2 "internal server error" 500, svc1, [.GetTransactions address]⟩
        | (w2, none) => ⟨w2, svc1, [.GetTransactions address]⟩

/-- The `transactionParser` service of `txparser.go` over the in-memory ledger, as the
handlers see it. -/
def transactionParser : TransactionParser inMemRepository :=
  { GetCurrentBlock := fun repo =>
      match GetCurrentBlock repo with
      | .ok n => (repo, n, none)
      | .error err => (repo, 0, some err)
    Subscribe := fun repo address => Subscribe repo address
    GetTransactions := fun repo address =>
      match GetTransactions repo address with
      | .ok txs => (repo, some txs, none)
      | .error err => (repo, none, some err) }

/-- `MockTxParser` of the handler tests: a service that answers every call with fixed
values. -/
def MockTxParser (currentBlock : Int) (transactions : Option (List Transaction))
    (subscribeError transactionsError : Option Error) : TransactionParser Unit :=
  { GetCurrentBlock := fun _ => ((), currentBlock, none)
    Subscribe := fun _ _ => ((), subscribeError)
    GetTransactions := fun _ _ => ((), transactions, transactionsError) }

/-- A request with the given method and `address` query parameter. -/
def requestWithAddress (method address : String) : Request :=
  { Method := method
    Query := fun key => if key = "address" then [address] else [] }

/-! ## `fmt.Sprintf("0x%x", blockNumber)` in `FetchBlockByNumber` -/

/-- The digit `fmt` writes for a value below sixteen: `"0123456789abcdef"[d]`. -/
def hexChar (d : Nat) : Char := Char.ofNat (if d < 10 then 48 + d else 87 + d)

/-- The digit loop of `fmt` for base 16, `for u >= 16 { ...; u >>= 4 }` and the last digit.
The first argument bounds the number of turns; a 64-bit value takes at most fifteen. -/
def fmtHexLoop : Nat → Nat → List Char → List Char
  | 0, u, acc => hexChar u :: acc
  | fuel + 1, u, acc =>
    if u ≥ 16 then fmtHexLoop fuel (u / 16) (hexChar (u % 16) :: acc) else hexChar u :: acc

/-- The verb `%x` of `fmt` on an unsigned 64-bit value: lowercase hexadecimal digits. -/
def fmtHex (u : Nat) : List Char := fmtHexLoop 16 u []

/-- The block parameter `FetchBlockByNumber` sends, `fmt.Sprintf("0x%x", blockNumber)`
(ethereum.go, line 84): `0x`, a minus sign for a negative number, the hexadecimal digits of
the magnitude. -/
def formatBlockParam (blockNumber : Int) : String :=
  "0x" ++ String.mk ((if blockNumber < 0 then ['-'] else []) ++ fmtHex blockNumber.natAbs)

/-! ## What a base-16 integer is -/

/-- A hexadecimal digit: `0`-`9`, `a`-`f` or `A`-`F`. -/
def isHexDigit (c : Char) : Bool :=
  decide ((48 ≤ c.toNat ∧ c.toNat ≤ 57) ∨ (97 ≤ c.toNat ∧ c.toNat ≤ 102)
    ∨ (65 ≤ c.toNat ∧ c.toNat ≤ 70))

/-- The value of a hexadecimal digit. -/
def hexDigitValue (c : Char) : Nat :=
  if c.toNat ≤ 57 then c.toNat - 48 else if 97 ≤ c.toNat then c.toNat - 87 else c.toNat - 55

/-- The number a sequence of hexadecimal digits denotes, most significant digit first,
continuing from `n`. -/
def hexFold (digits : List Char) (n : Nat) : Nat :=
  digits.foldl (fun acc c => acc * 16 + hexDigitValue c) n

/-- The characters `s` are a base-16 integer that fits in 64 signed bits and denote `v`: an
optional sign, then at least one hexadecimal digit, with the value in range. -/
def IsHexInt64 (s : List Char) (v : Int) : Prop :=
  ∃ (sign digits : List Char), s = sign ++ digits
    ∧ (sign = [] ∨ sign = ['+'] ∨ sign = ['-'])
    ∧ digits ≠ [] ∧ (∀ c ∈ digits, isHexDigit c = true)
    ∧ v = (if sign = ['-'] then -(hexFold digits 0 : Int) else (hexFold digits 0 : Int))
    ∧ -(2 : Int) ^ 63 ≤ v ∧ v < (2 : Int) ^ 63

/-! ## The ledger operations -/

theorem GetTransactions_eq (tr : inMemRepository) (a : String) :
    tr.GetTransactions a
      = if a ∈ tr.addresses.keys then .ok (tr.bucket a) else .error Error.NotFound := by
  unfold inMemRepository.GetTransactions SyncMap.Load
  by_cases h : a ∈ tr.addresses.keys
  · simp only [h, decide_True, if_true]
    by_cases hl : (tr.bucket a).length = 0
    · simp [hl, List.length_eq_zero.mp hl]
    · simp [hl]
  · simp [h, errs.NotFoundErr]

theorem AddTransaction_registered (tr : inMemRepository) (a : String) (t : Transaction)
    (h : a ∈ tr.addresses.keys) :
    (tr.AddTransaction a t).2 = none
      ∧ (tr.AddTransaction a t).1.addresses = tr.addresses
      ∧ (tr.AddTransaction a t).1.blockNumber = tr.blockNumber
      ∧ ∀ x, (tr.AddTransaction a t).1.bucket x
          = if x = a then tr.bucket x ++ [t] else tr.bucket x := by
  unfold inMemRepository.AddTransaction SyncMap.Load
  simp only [h, decide_True, Bool.true_eq_false, if_false]
  by_cases hn : tr.transactions a = none
  · simp only [hn, if_true]
    refine ⟨trivial, trivial, trivial, ?_⟩
    intro x
    by_cases hx : x = a
    · subst hx
      simp [inMemRepository.bucket, hn]
    · simp [inMemRepository.bucket, hx, Function.update_noteq hx]
  · simp only [hn, if_false]
    refine ⟨trivial, trivial, trivial, ?_⟩
    intro x
    by_cases hx : x = a
    · subst hx
      simp [inMemRepository.bucket]
    · simp [inMemRepository.bucket, hx, Function.update_noteq hx]

/-! ## The loops of the cycle -/

theorem addToSubscribers_spec (t : Transaction) :
    ∀ (subs : List String) (r : inMemTransaction), subs.Nodup →
      (∀ a ∈ subs, a ∈ r.inMemRepository.addresses.keys) →
      (addToSubscribers t subs r).2 = none
        ∧ (addToSubscribers t subs r).1.inMemRepository.addresses = r.inMemRepository.addresses
        ∧ (addToSubscribers t subs r).1.inMemRepository.blockNumber
            = r.inMemRepository.blockNumber
        ∧ ∀ x, (addToSubscribers t subs r).1.inMemRepository.bucket x
            = r.inMemRepository.bucket x ++ appended subs [t] x := by
  intro subs
  induction subs with
  | nil =>
    intro r _ _
    simp [addToSubscribers, appended]
  | cons addr rest ih =>
    intro r hnd hreg
    have hnd1 : rest.Nodup := (List.nodup_cons.mp hnd).2
    have hnot : addr ∉ rest := (List.nodup_cons.mp hnd).1
    have haddr : addr ∈ r.inMemRepository.addresses.keys := hreg addr (List.mem_cons_self _ _)
    by_cases hm : t.From = addr ∨ t.To = addr
    · obtain ⟨h1, h2, h3, h4⟩ := AddTransaction_registered r.inMemRepository addr t haddr
      have hreg1 : ∀ a ∈ rest,
          a ∈ (r.inMemRepository.AddTransaction addr t).1.addresses.keys := by
        intro a ha
        rw [h2]
        exact hreg a (List.mem_cons_of_mem _ ha)
      obtain ⟨i1, i2, i3, i4⟩ := ih ⟨(r.inMemRepository.AddTransaction addr t).1⟩ hnd1 hreg1
      have hstep : addToSubscribers t (addr :: rest) r
          = addToSubscribers t rest ⟨(r.inMemRepository.AddTransaction addr t).1⟩ := by
        simp only [addToSubscribers, hm, if_true, inMemTransaction.AddTransaction, h1]
      rw [hstep]
      refine ⟨i1, i2.trans h2, i3.trans h3, ?_⟩
      intro x
      rw [i4 x, h4 x]
      by_cases hx : x = addr
      · subst hx
        simp [appended, hnot, matching, hm]
      · simp [appended, hx]
    · have hreg1 : ∀ a ∈ rest, a ∈ r.inMemRepository.addresses.keys :=
        fun a ha => hreg a (List.mem_cons_of_mem _ ha)
      obtain ⟨i1, i2, i3, i4⟩ := ih r hnd1 hreg1
      have hstep : addToSubscribers t (addr :: rest) r = addToSubscribers t rest r := by
        simp only [addToSubscribers, hm, if_false]
      rw [hstep]
      refine ⟨i1, i2, i3, ?_⟩
      intro x
      rw [i4 x]
      by_cases hx : x = addr
      · subst hx
        simp [appended, hnot, matching, hm]
      · simp [appended, hx]

theorem appended_cons (subs : List String) (t : Transaction) (ts : List Transaction)
    (x : String) : appended subs (t :: ts) x = appended subs [t] x ++ appended subs ts x := by
  unfold appended matching
  by_cases hx : x ∈ subs
  · simp only [hx, if_true]
    rw [← List.filter_append]
    rfl
  · simp [hx]

theorem processTransactions_spec (subs : List String) (hnd : subs.Nodup) :
    ∀ (txs : List Transaction) (r : inMemTransaction),
      (∀ a ∈ subs, a ∈ r.inMemRepository.addresses.keys) →
      (processTransactions subs txs r).2 = none
        ∧ (processTransactions subs txs r).1.inMemRepository.addresses
            = r.inMemRepository.addresses
        ∧ (processTransactions subs txs r).1.inMemRepository.blockNumber
            = r.inMemRepository.blockNumber
        ∧ ∀ x, (processTransactions subs txs r).1.inMemRepository.bucket x
            = r.inMemRepository.bucket x ++ appended subs txs x := by
  intro txs
  induction txs with
  | nil =>
    intro r _
    simp [processTransactions, appended, matching]
  | cons t ts ih =>
    intro r hreg
    obtain ⟨h1, h2, h3, h4⟩ := addToSubscribers_spec t subs r hnd hreg
    have hreg1 : ∀ a ∈ subs,
        a ∈ (addToSubscribers t subs r).1.inMemRepository.addresses.keys := by
      intro a ha
      rw [h2]
      exact hreg a ha
    obtain ⟨i1, i2, i3, i4⟩ := ih (addToSubscribers t subs r).1 hreg1
    have hstep : processTransactions subs (t :: ts) r
        = processTransactions subs ts (addToSubscribers t subs r).1 := by
      rw [processTransactions]
      generalize hq : addToSubscribers t subs r = q at h1
      obtain ⟨q1, q2⟩ := q
      simp only at h1
      subst h1
      rfl
    rw [hstep]
    refine ⟨i1, i2.trans h2, i3.trans h3, ?_⟩
    intro x
    rw [i4 x, h4 x, appended_cons subs t ts x, List.append_assoc]

theorem blocksFrom_succ (chain : Int → Block) (lo : Int) (n : Nat) :
    blocksFrom chain lo (n + 1) = chain lo :: blocksFrom chain (lo + 1) n := by
  unfold blocksFrom
  rw [List.range_succ_eq_map, List.map_cons, List.map_map]
  simp only [Nat.cast_zero, add_zero, List.cons.injEq, true_and]
  apply List.map_congr_left
  intro i _
  simp only [Function.comp, Nat.cast_succ]
  congr 1
  ring

theorem blocksFrom_length (chain : Int → Block) (lo : Int) (n : Nat) :
    (blocksFrom chain lo n).length = n := by
  simp [blocksFrom]

theorem matchingOf_eq_filter (a : String) (blocks : List Block) :
    matchingOf a blocks
      = (blocks.flatMap fun b => b.Transactions).filter
          (fun t => decide (t.From = a ∨ t.To = a)) := by
  induction blocks with
  | nil => rfl
  | cons b rest ih =>
    simp only [matchingOf, List.flatMap_cons, List.filter_append] at ih ⊢
    rw [ih]
    rfl

theorem mem_matchingOf (a : String) (blocks : List Block) (t : Transaction) :
    t ∈ matchingOf a blocks
      ↔ t ∈ (blocks.flatMap fun b => b.Transactions) ∧ (t.From = a ∨ t.To = a) := by
  rw [matchingOf_eq_filter, List.mem_filter]
  simp

theorem blocksFrom_append (chain : Int → Block) :
    ∀ (m k : Nat) (lo : Int),
      blocksFrom chain lo (m + k)
        = blocksFrom chain lo m ++ blocksFrom chain (lo + (m : Int)) k := by
  intro m
  induction m with
  | zero =>
    intro k lo
    simp [blocksFrom]
  | succ m ih =>
    intro k lo
    have e1 : m + 1 + k = (m + k) + 1 := by omega
    have e2 : lo + ((m + 1 : Nat) : Int) = lo + 1 + (m : Int) := by push_cast; ring
    rw [e1, blocksFrom_succ, blocksFrom_succ, ih k (lo + 1), e2]
    rfl

theorem matchingOf_append (a : String) (xs ys : List Block) :
    matchingOf a (xs ++ ys) = matchingOf a xs ++ matchingOf a ys := by
  simp [matchingOf, List.flatMap_append]

/-! ## The visiting order of `Range` -/

theorem Range_perm (m : SyncMap) (visit : List String) : (m.Range visit).Perm m.keys := by
  unfold SyncMap.Range
  by_cases h : visit.Perm m.keys
  · rw [if_pos h]
    exact h
  · rw [if_neg h]

theorem Range_nodup (m : SyncMap) (visit : List String) : (m.Range visit).Nodup :=
  (Range_perm m visit).nodup_iff.mpr m.nodup

theorem mem_Range (m : SyncMap) (visit : List String) (a : String) :
    a ∈ m.Range visit ↔ a ∈ m.keys :=
  (Range_perm m visit).mem_iff

theorem incInt64_of_lt (n : Int) (h : n < maxInt64) : incInt64 n = n + 1 := by
  unfold incInt64
  rw [if_neg (ne_of_lt h)]

theorem incInt64_max : incInt64 maxInt64 = minInt64 := by
  unfold incInt64
  rw [if_pos rfl]

theorem incInt64_le_max (n : Int) (h : n ≤ maxInt64) : incInt64 n ≤ maxInt64 := by
  unfold incInt64
  by_cases hn : n = maxInt64
  · rw [if_pos hn]
    decide
  · rw [if_neg hn]
    omega

theorem incInt64_eq_mod (n : Int) (h : isInt64 n) :
    incInt64 n = (n + 1 + 2 ^ 63) % 2 ^ 64 - 2 ^ 63 := by
  unfold isInt64 minInt64 maxInt64 at h
  unfold incInt64 maxInt64 minInt64
  by_cases hn : n = 2 ^ 63 - 1
  · rw [if_pos hn, hn]
    norm_num
  · rw [if_neg hn]
    omega

/-! ## The catch-up loop, turn by turn -/

theorem catchUp_step_ok (c : Client) (subs : List String) (H : Int) (hnd : subs.Nodup)
    (fuel : Nat) (block : Int) (r : inMemTransaction) (req : List Int) (bd : Block)
    (hle : block ≤ H)
    (hreg : ∀ a ∈ subs, a ∈ r.inMemRepository.addresses.keys)
    (hf : c.FetchBlockByNumber block = .ok bd) :
    catchUp c subs H (fuel + 1) block r req
      = catchUp c subs H fuel (incInt64 block)
          ((processTransactions subs bd.Transactions r).1.SetBlockNumber block).1
          (req ++ [block]) := by
  have h1 := (processTransactions_spec subs hnd bd.Transactions r hreg).1
  rw [catchUp]
  simp only [hle, if_true, hf]
  generalize processTransactions subs bd.Transactions r = q at h1
  obtain ⟨q1, q2⟩ := q
  simp only at h1
  subst h1
  rfl

theorem catchUp_step_error (c : Client) (subs : List String) (H : Int) (fuel : Nat)
    (block : Int) (r : inMemTransaction) (req : List Int) (e : Error)
    (hle : block ≤ H) (hf : c.FetchBlockByNumber block = .error e) :
    catchUp c subs H (fuel + 1) block r req
      = some ⟨r.inMemRepository, req ++ [block], .blockFetchFailed block⟩ := by
  rw [catchUp]
  simp only [hle, if_true, hf]

theorem catchUp_step_done (c : Client) (subs : List String) (H : Int) (fuel : Nat)
    (block : Int) (r : inMemTransaction) (req : List Int) (hgt : ¬ block ≤ H) :
    catchUp c subs H (fuel + 1) block r req = some ⟨r.inMemRepository, req, .committed⟩ := by
  rw [catchUp]
  simp only [hgt, if_false, inMemTransaction.Commit]

/-- One turn of the loop body on the ledger: the address map is kept, the checkpoint is the
block's number, every subscribed bucket grows by the block's matching transactions. -/
theorem turn_spec (subs : List String) (hnd : subs.Nodup) (txs : List Transaction)
    (block : Int) (r : inMemTransaction)
    (hreg : ∀ a ∈ subs, a ∈ r.inMemRepository.addresses.keys) :
    ((processTransactions subs txs r).1.SetBlockNumber block).1.inMemRepository.addresses
        = r.inMemRepository.addresses
      ∧ ((processTransactions subs txs r).1.SetBlockNumber block).1.inMemRepository.blockNumber
          = block
      ∧ ∀ x, ((processTransactions subs txs r).1.SetBlockNumber block).1.inMemRepository.bucket x
          = r.inMemRepository.bucket x ++ appended subs txs x := by
  obtain ⟨_, p2, _, p4⟩ := processTransactions_spec subs hnd txs r hreg
  exact ⟨p2, rfl, p4⟩

/-- The loop never changes the address map, and every bucket grows by the matching
transactions of the blocks the loop obtains, whatever the client does and wherever the
counter goes. -/
theorem catchUp_general (c : Client) (subs : List String) (H : Int) (hnd : subs.Nodup) :
    ∀ (fuel : Nat) (block : Int) (r : inMemTransaction) (req : List Int) (res : CycleResult),
      (∀ a ∈ subs, a ∈ r.inMemRepository.addresses.keys) →
      catchUp c subs H fuel block r req = some res →
      res.repo.addresses = r.inMemRepository.addresses
        ∧ ∀ x, res.repo.bucket x
            = r.inMemRepository.bucket x
                ++ (if x ∈ subs then matchingOf x (loopBlocks c H fuel block) else []) := by
  intro fuel
  induction fuel with
  | zero =>
    intro block r req res _ h
    simp [catchUp] at h
  | succ fuel ih =>
    intro block r req res hreg h
    by_cases hle : block ≤ H
    · cases hf : c.FetchBlockByNumber block with
      | error e =>
        rw [catchUp_step_error c subs H fuel block r req e hle hf] at h
        have hres : res = ⟨r.inMemRepository, req ++ [block], .blockFetchFailed block⟩ := by
          injection h with h'
          exact h'.symm
        subst hres
        simp [loopBlocks, hle, hf, matchingOf]
      | ok bd =>
        rw [catchUp_step_ok c subs H hnd fuel block r req bd hle hreg hf] at h
        obtain ⟨t1, _, t3⟩ := turn_spec subs hnd bd.Transactions block r hreg
        have hreg2 : ∀ a ∈ subs,
            a ∈ ((processTransactions subs bd.Transactions r).1.SetBlockNumber
                  block).1.inMemRepository.addresses.keys := by
          intro a ha
          rw [t1]
          exact hreg a ha
        obtain ⟨i1, i2⟩ := ih _ _ _ res hreg2 h
        refine ⟨i1.trans t1, ?_⟩
        intro x
        rw [i2 x, t3 x]
        have hlb : loopBlocks c H (fuel + 1) block
            = bd :: loopBlocks c H fuel (incInt64 block) := by
          simp [loopBlocks, hle, hf]
        rw [hlb]
        by_cases hx : x ∈ subs
        · simp [hx, appended, matchingOf]
        · simp [hx, appended]
    · rw [catchUp_step_done c subs H fuel block r req hle] at h
      have hres : res = ⟨r.inMemRepository, req, .committed⟩ := by
        injection h with h'
        exact h'.symm
      subst hres
      simp [loopBlocks, hle, matchingOf]

/-- More turns do not change what a loop that is left returns. -/
theorem catchUp_mono (c : Client) (subs : List String) (H : Int) (hnd : subs.Nodup) :
    ∀ (fuel k : Nat) (block : Int) (r : inMemTransaction) (req : List Int) (res : CycleResult),
      (∀ a ∈ subs, a ∈ r.inMemRepository.addresses.keys) →
      catchUp c subs H fuel block r req = some res →
      catchUp c subs H (fuel + k) block r req = some res := by
  intro fuel
  induction fuel with
  | zero =>
    intro k block r req res _ h
    simp [catchUp] at h
  | succ fuel ih =>
    intro k block r req res hreg h
    have hk : fuel + 1 + k = (fuel + k) + 1 := by omega
    rw [hk]
    by_cases hle : block ≤ H
    · cases hf : c.FetchBlockByNumber block with
      | error e =>
        rw [catchUp_step_error c subs H fuel block r req e hle hf] at h
        rw [catchUp_step_error c subs H (fuel + k) block r req e hle hf]
        exact h
      | ok bd =>
        rw [catchUp_step_ok c subs H hnd fuel block r req bd hle hreg hf] at h
        rw [catchUp_step_ok c subs H hnd (fuel + k) block r req bd hle hreg hf]
        have t1 := (turn_spec subs hnd bd.Transactions block r hreg).1
        exact ih k _ _ _ res (fun a ha => by rw [t1]; exact hreg a ha) h
    · rw [catchUp_step_done c subs H fuel block r req hle] at h
      rw [catchUp_step_done c subs H (fuel + k) block r req hle]
      exact h

/-- A loop whose counter is a 64-bit value can be left through the commit only when the
head is below the largest `int`. -/
theorem catchUp_committed_lt (c : Client) (subs : List String) (H : Int) (hnd : subs.Nodup) :
    ∀ (fuel : Nat) (block : Int) (r : inMemTransaction) (req : List Int) (res : CycleResult),
      (∀ a ∈ subs, a ∈ r.inMemRepository.addresses.keys) → block ≤ maxInt64 →
      catchUp c subs H fuel block r req = some res → res.exit = .committed →
      H < maxInt64 := by
  intro fuel
  induction fuel with
  | zero =>
    intro block r req res _ _ h
    simp [catchUp] at h
  | succ fuel ih =>
    intro block r req res hreg hb h hexit
    by_cases hle : block ≤ H
    · cases hf : c.FetchBlockByNumber block with
      | error e =>
        rw [catchUp_step_error c subs H fuel block r req e hle hf] at h
        have hres : res = ⟨r.inMemRepository, req ++ [block], .blockFetchFailed block⟩ := by
          injection h with h'
          exact h'.symm
        subst hres
        cases hexit
      | ok bd =>
        rw [catchUp_step_ok c subs H hnd fuel block r req bd hle hreg hf] at h
        have t1 := (turn_spec subs hnd bd.Transactions block r hreg).1
        exact ih _ _ _ res (fun a ha => by rw [t1]; exact hreg a ha)
          (incInt64_le_max block hb) h hexit
    · omega

/-! ## The loop over a stretch of served blocks -/

theorem afterBlocks_spec (subs : List String) (hnd : subs.Nodup) (chain : Int → Block) :
    ∀ (n : Nat) (lo : Int) (r : inMemTransaction),
      (∀ a ∈ subs, a ∈ r.inMemRepository.addresses.keys) →
      (afterBlocks subs chain n lo r).inMemRepository.addresses = r.inMemRepository.addresses
        ∧ (afterBlocks subs chain n lo r).inMemRepository.blockNumber
            = (if n = 0 then r.inMemRepository.blockNumber else lo + (n : Int) - 1)
        ∧ ∀ x, (afterBlocks subs chain n lo r).inMemRepository.bucket x
            = r.inMemRepository.bucket x
                ++ (if x ∈ subs then matchingOf x (blocksFrom chain lo n) else []) := by
  intro n
  induction n with
  | zero =>
    intro lo r _
    simp [afterBlocks, blocksFrom, matchingOf]
  | succ n ih =>
    intro lo r hreg
    obtain ⟨t1, t2, t3⟩ := turn_spec subs hnd (chain lo).Transactions lo r hreg
    have hreg2 : ∀ a ∈ subs,
        a ∈ ((processTransactions subs (chain lo).Transactions r).1.SetBlockNumber
              lo).1.inMemRepository.addresses.keys := by
      intro a ha
      rw [t1]
      exact hreg a ha
    obtain ⟨i1, i2, i3⟩ := ih (lo + 1) _ hreg2
    have hdef : afterBlocks subs chain (n + 1) lo r
        = afterBlocks subs chain n (lo + 1)
            ((processTransactions subs (chain lo).Transactions r).1.SetBlockNumber lo).1 := rfl
    rw [hdef]
    refine ⟨i1.trans t1, ?_, ?_⟩
    · rw [i2, t2]
      by_cases hn : n = 0
      · simp [hn]
      · simp only [hn, if_false, Nat.succ_ne_zero]
        push_cast
        ring
    · intro x
      rw [i3 x, t3 x, blocksFrom_succ]
      by_cases hx : x ∈ subs
      · simp [hx, appended, matchingOf]
      · simp [hx, appended]

/-- While the client serves the blocks `lo, ..., lo + m - 1`, all of them at most the head
and none of them the largest `int`, the loop makes `m` turns over them and goes on from
`lo + m`. -/
theorem catchUp_served (c : Client) (subs : List String) (H : Int) (hnd : subs.Nodup)
    (chain : Int → Block) :
    ∀ (m fuel : Nat) (lo : Int) (r : inMemTransaction) (req : List Int),
      (∀ a ∈ subs, a ∈ r.inMemRepository.addresses.keys) →
      (∀ i : Nat, i < m →
        c.FetchBlockByNumber (lo + (i : Int)) = .ok (chain (lo + (i : Int)))) →
      lo + (m : Int) ≤ H + 1 → lo + (m : Int) ≤ maxInt64 →
      catchUp c subs H (fuel + m) lo r req
        = catchUp c subs H fuel (lo + (m : Int)) (afterBlocks subs chain m lo r)
            (req ++ (List.range m).map (fun (i : Nat) => lo + (i : Int))) := by
  intro m
  induction m with
  | zero =>
    intro fuel lo r req _ _ _ _
    simp [afterBlocks]
  | succ m ih =>
    intro fuel lo r req hreg hok hH hmax
    have h0 : c.FetchBlockByNumber lo = .ok (chain lo) := by
      have := hok 0 (Nat.succ_pos m)
      simpa using this
    have hle : lo ≤ H := by push_cast at hH; omega
    have hlt : lo < maxInt64 := by push_cast at hmax; omega
    have hfuel : fuel + (m + 1) = (fuel + m) + 1 := by omega
    have t1 := (turn_spec subs hnd (chain lo).Transactions lo r hreg).1
    rw [hfuel, catchUp_step_ok c subs H hnd (fuel + m) lo r req (chain lo) hle hreg h0,
      incInt64_of_lt lo hlt]
    have hok1 : ∀ i : Nat, i < m →
        c.FetchBlockByNumber (lo + 1 + (i : Int)) = .ok (chain (lo + 1 + (i : Int))) := by
      intro i hi
      have := hok (i + 1) (Nat.succ_lt_succ hi)
      have e : lo + ((i + 1 : Nat) : Int) = lo + 1 + (i : Int) := by push_cast; ring
      rwa [e] at this
    rw [ih fuel (lo + 1) _ (req ++ [lo]) (fun a ha => by rw [t1]; exact hreg a ha) hok1
      (by push_cast at hH; omega) (by push_cast at hmax; omega)]
    have e1 : lo + 1 + (m : Int) = lo + ((m + 1 : Nat) : Int) := by push_cast; ring
    have e2 : (req ++ [lo]) ++ (List.range m).map (fun (i : Nat) => lo + 1 + (i : Int))
        = req ++ (List.range (m + 1)).map (fun (i : Nat) => lo + (i : Int)) := by
      rw [List.range_succ_eq_map, List.map_cons, List.map_map, List.append_assoc]
      congr 1
      simp only [List.singleton_append, Nat.cast_zero, add_zero, List.cons.injEq, true_and]
      apply List.map_congr_left
      intro i _
      simp only [Function.comp, Nat.cast_succ]
      ring
    rw [e1, e2]
    rfl

theorem servedCount_spec (c : Client) :
    ∀ (n : Nat) (lo : Int),
      servedCount c n lo ≤ n
        ∧ (∀ i : Nat, i < servedCount c n lo →
            c.FetchBlockByNumber (lo + (i : Int)) = .ok (servedChain c (lo + (i : Int))))
        ∧ (servedCount c n lo < n →
            ∃ e, c.FetchBlockByNumber (lo + (servedCount c n lo : Int)) = .error e) := by
  intro n
  induction n with
  | zero =>
    intro lo
    simp [servedCount]
  | succ n ih =>
    intro lo
    cases hf : c.FetchBlockByNumber lo with
    | error e =>
      have hs : servedCount c (n + 1) lo = 0 := by simp [servedCount, hf]
      rw [hs]
      refine ⟨Nat.zero_le _, fun i hi => absurd hi (Nat.not_lt_zero i), fun _ => ⟨e, ?_⟩⟩
      simpa using hf
    | ok bd =>
      have hs : servedCount c (n + 1) lo = servedCount c n (lo + 1) + 1 := by
        simp [servedCount, hf]
      obtain ⟨i1, i2, i3⟩ := ih (lo + 1)
      rw [hs]
      refine ⟨by omega, ?_, ?_⟩
      · intro i hi
        cases i with
        | zero =>
          simp only [Nat.cast_zero, add_zero, servedChain, hf]
        | succ j =>
          have e : lo + ((j + 1 : Nat) : Int) = lo + 1 + (j : Int) := by push_cast; ring
          rw [e]
          exact i2 j (by omega)
      · intro hlt
        obtain ⟨e, he⟩ := i3 (by omega)
        refine ⟨e, ?_⟩
        have e2 : lo + ((servedCount c n (lo + 1) + 1 : Nat) : Int)
            = lo + 1 + (servedCount c n (lo + 1) : Int) := by push_cast; ring
        rw [e2]
        exact he

/-! ## One cycle -/

theorem processNewBlocks_idle_of_error (fuel : Nat) (c : Client) (visit : List String)
    (repo : inMemRepository) (e : Error) (hh : c.FetchCurrentBlock = .error e) :
    processNewBlocks fuel c visit repo = some ⟨repo, [], .headFetchFailed⟩ := by
  simp only [processNewBlocks, hh]

theorem processNewBlocks_idle_of_le (fuel : Nat) (c : Client) (visit : List String)
    (repo : inMemRepository) (H : Int)
    (hh : c.FetchCurrentBlock = .ok H) (hle : H ≤ repo.blockNumber) :
    processNewBlocks fuel c visit repo = some ⟨repo, [], .upToDate⟩ := by
  simp only [processNewBlocks, hh, inMemRepository.GetBlockNumber, hle, if_true]

theorem processNewBlocks_catchUp (fuel : Nat) (c : Client) (visit : List String)
    (repo : inMemRepository) (H : Int)
    (hh : c.FetchCurrentBlock = .ok H) (hlt : repo.blockNumber < H) :
    processNewBlocks fuel c visit repo
      = catchUp c (repo.addresses.Range visit) H fuel (repo.blockNumber + 1) ⟨repo⟩ [] := by
  have hn : ¬ H ≤ repo.blockNumber := not_le.mpr hlt
  have hmax : H ≤ maxInt64 := (c.headIsInt64 H hh).2
  have hinc : incInt64 repo.blockNumber = repo.blockNumber + 1 :=
    incInt64_of_lt _ (by omega)
  simp only [processNewBlocks, hh, inMemRepository.GetBlockNumber, hn, if_false,
    inMemRepository.GetAddresses, inMemRepository.NewTransaction, hinc]

theorem Range_registered (repo : inMemRepository) (visit : List String) :
    ∀ a ∈ repo.addresses.Range visit,
      a ∈ (inMemTransaction.mk repo).inMemRepository.addresses.keys :=
  fun a ha => (mem_Range repo.addresses visit a).mp ha

/-- Every cycle that returns, whatever the client does: the address map is kept and each
registered bucket grows by the matching transactions of some sequence of blocks, the ones
the loop obtained; the other buckets are not touched. -/
theorem processNewBlocks_general (fuel : Nat) (c : Client) (visit : List String)
    (repo : inMemRepository) (res : CycleResult)
    (h : processNewBlocks fuel c visit repo = some res) :
    res.repo.addresses = repo.addresses
      ∧ ∃ blocks : List Block, ∀ x, res.repo.bucket x
          = repo.bucket x ++ (if x ∈ repo.addresses.keys then matchingOf x blocks else []) := by
  cases hh : c.FetchCurrentBlock with
  | error e =>
    rw [processNewBlocks_idle_of_error fuel c visit repo e hh] at h
    have hres : res = ⟨repo, [], .headFetchFailed⟩ := by
      injection h with h'
      exact h'.symm
    subst hres
    exact ⟨rfl, [], fun x => by simp [matchingOf]⟩
  | ok H =>
    by_cases hle : H ≤ repo.blockNumber
    · rw [processNewBlocks_idle_of_le fuel c visit repo H hh hle] at h
      have hres : res = ⟨repo, [], .upToDate⟩ := by
        injection h with h'
        exact h'.symm
      subst hres
      exact ⟨rfl, [], fun x => by simp [matchingOf]⟩
    · rw [processNewBlocks_catchUp fuel c visit repo H hh (not_le.mp hle)] at h
      obtain ⟨h1, h2⟩ := catchUp_general c (repo.addresses.Range visit) H
        (Range_nodup repo.addresses visit) fuel _ ⟨repo⟩ [] res
        (Range_registered repo visit) h
      refine ⟨h1, loopBlocks c H fuel (repo.blockNumber + 1), ?_⟩
      intro x
      rw [h2 x]
      by_cases hx : x ∈ repo.addresses.keys
      · rw [if_pos ((mem_Range repo.addresses visit x).mpr hx), if_pos hx]
      · rw [if_neg (fun hm => hx ((mem_Range repo.addresses visit x).mp hm)), if_neg hx]

theorem processNewBlocks_mono (fuel k : Nat) (c : Client) (visit : List String)
    (repo : inMemRepository) (res : CycleResult)
    (h : processNewBlocks fuel c visit repo = some res) :
    processNewBlocks (fuel + k) c visit repo = some res := by
  cases hh : c.FetchCurrentBlock with
  | error e =>
    rw [processNewBlocks_idle_of_error fuel c visit repo e hh] at h
    rw [processNewBlocks_idle_of_error (fuel + k) c visit repo e hh]
    exact h
  | ok H =>
    by_cases hle : H ≤ repo.blockNumber
    · rw [processNewBlocks_idle_of_le fuel c visit repo H hh hle] at h
      rw [processNewBlocks_idle_of_le (fuel + k) c visit repo H hh hle]
      exact h
    · rw [processNewBlocks_catchUp fuel c visit repo H hh (not_le.mp hle)] at h
      rw [processNewBlocks_catchUp (fuel + k) c visit repo H hh (not_le.mp hle)]
      exact catchUp_mono c _ H (Range_nodup repo.addresses visit) fuel k _ _ _ res
        (Range_registered repo visit) h

theorem GetTransactions_grow (repo res : inMemRepository) (extra : String → List Transaction)
    (h1 : res.addresses = repo.addresses)
    (h2 : ∀ x, x ∈ repo.addresses.keys → res.bucket x = repo.bucket x ++ extra x) :
    ∀ a, res.GetTransactions a
      = (repo.GetTransactions a).map (fun old => old ++ extra a) := by
  intro a
  rw [GetTransactions_eq, GetTransactions_eq, h1]
  by_cases ha : a ∈ repo.addresses.keys
  · rw [if_pos ha, if_pos ha, h2 a ha]
    rfl
  · rw [if_neg ha, if_neg ha]
    rfl

/-- The ledger the loop leaves after `m` served blocks, seen through the ledger's own
operations. -/
theorem afterBlocks_ledger (repo : inMemRepository) (visit : List String)
    (chain : Int → Block) (m : Nat) :
    (afterBlocks (repo.addresses.Range visit) chain m (repo.blockNumber + 1)
        ⟨repo⟩).inMemRepository.addresses = repo.addresses
      ∧ (afterBlocks (repo.addresses.Range visit) chain m (repo.blockNumber + 1)
          ⟨repo⟩).inMemRepository.blockNumber = repo.blockNumber + (m : Int)
      ∧ (∀ x, (afterBlocks (repo.addresses.Range visit) chain m (repo.blockNumber + 1)
          ⟨repo⟩).inMemRepository.bucket x
            = repo.bucket x
                ++ (if x ∈ repo.addresses.keys
                    then matchingOf x (blocksFrom chain (repo.blockNumber + 1) m) else []))
      ∧ ∀ a, (afterBlocks (repo.addresses.Range visit) chain m (repo.blockNumber + 1)
          ⟨repo⟩).inMemRepository.GetTransactions a
            = (repo.GetTransactions a).map (fun old =>
                old ++ matchingOf a (blocksFrom chain (repo.blockNumber + 1) m)) := by
  obtain ⟨h1, h2, h3⟩ := afterBlocks_spec (repo.addresses.Range visit)
    (Range_nodup repo.addresses visit) chain m (repo.blockNumber + 1) ⟨repo⟩
    (Range_registered repo visit)
  have hb : ∀ x, (afterBlocks (repo.addresses.Range visit) chain m (repo.blockNumber + 1)
      ⟨repo⟩).inMemRepository.bucket x
        = repo.bucket x
            ++ (if x ∈ repo.addresses.keys
                then matchingOf x (blocksFrom chain (repo.blockNumber + 1) m) else []) := by
    intro x
    rw [h3 x]
    by_cases hx : x ∈ repo.addresses.keys
    · rw [if_pos ((mem_Range repo.addresses visit x).mpr hx), if_pos hx]
    · rw [if_neg (fun hm => hx ((mem_Range repo.addresses visit x).mp hm)), if_neg hx]
  refine ⟨h1, ?_, hb, ?_⟩
  · rw [h2]
    by_cases hm : m = 0
    · simp [hm]
    · simp only [hm, if_false]
      ring
  · apply GetTransactions_grow _ _ _ h1
    intro x hx
    rw [hb x, if_pos hx]

/-- A cycle whose loop is served the blocks after the checkpoint and before `b` and fails
at `b`, a block up to the head: what it returns, given turns enough to get there. -/
theorem cycle_fails_at (fuel : Nat) (c : Client) (visit : List String)
    (repo : inMemRepository) (H b : Int) (chain : Int → Block) (e : Error)
    (hh : c.FetchCurrentBlock = .ok H) (hCb : repo.blockNumber < b) (hbH : b ≤ H)
    (hok : ∀ k, repo.blockNumber < k → k < b → c.FetchBlockByNumber k = .ok (chain k))
    (hfail : c.FetchBlockByNumber b = .error e)
    (hfuel : (b - repo.blockNumber).toNat ≤ fuel) :
    processNewBlocks fuel c visit repo
      = some ⟨(afterBlocks (repo.addresses.Range visit) chain (b - 1 - repo.blockNumber).toNat
                (repo.blockNumber + 1) ⟨repo⟩).inMemRepository,
              (List.range (b - 1 - repo.blockNumber).toNat).map
                  (fun (i : Nat) => repo.blockNumber + 1 + (i : Int)) ++ [b],
              .blockFetchFailed b⟩ := by
  have hmax : H ≤ maxInt64 := (c.headIsInt64 H hh).2
  have hfu : fuel = ((fuel - (b - 1 - repo.blockNumber).toNat - 1) + 1)
      + (b - 1 - repo.blockNumber).toNat := by omega
  have hb : repo.blockNumber + 1 + (((b - 1 - repo.blockNumber).toNat : Nat) : Int) = b := by
    omega
  rw [processNewBlocks_catchUp fuel c visit repo H hh (by omega), hfu,
    catchUp_served c _ H (Range_nodup repo.addresses visit) chain
      (b - 1 - repo.blockNumber).toNat _ (repo.blockNumber + 1) ⟨repo⟩ []
      (Range_registered repo visit) (fun i hi => hok _ (by omega) (by omega))
      (by omega) (by omega), hb,
    catchUp_step_error c _ H _ b _ _ e hbH hfail]
  simp

/-- A cycle whose head is below the largest `int` and whose loop is served every block
after the checkpoint up to the head: what it returns, given turns enough. -/
theorem cycle_commits (fuel : Nat) (c : Client) (visit : List String)
    (repo : inMemRepository) (H : Int) (chain : Int → Block)
    (hh : c.FetchCurrentBlock = .ok H) (hlt : repo.blockNumber < H) (hmax : H < maxInt64)
    (hok : ∀ k, repo.blockNumber < k → k ≤ H → c.FetchBlockByNumber k = .ok (chain k))
    (hfuel : (H - repo.blockNumber).toNat < fuel) :
    processNewBlocks fuel c visit repo
      = some ⟨(afterBlocks (repo.addresses.Range visit) chain (H - repo.blockNumber).toNat
                (repo.blockNumber + 1) ⟨repo⟩).inMemRepository,
              (List.range (H - repo.blockNumber).toNat).map
                  (fun (i : Nat) => repo.blockNumber + 1 + (i : Int)),
              .committed⟩ := by
  have hfu : fuel = ((fuel - (H - repo.blockNumber).toNat - 1) + 1)
      + (H - repo.blockNumber).toNat := by omega
  have hb : repo.blockNumber + 1 + (((H - repo.blockNumber).toNat : Nat) : Int) = H + 1 := by
    omega
  rw [processNewBlocks_catchUp fuel c visit repo H hh hlt, hfu,
    catchUp_served c _ H (Range_nodup repo.addresses visit) chain
      (H - repo.blockNumber).toNat _ (repo.blockNumber + 1) ⟨repo⟩ []
      (Range_registered repo visit) (fun i hi => hok _ (by omega) (by omega))
      (by omega) (by omega), hb,
    catchUp_step_done c _ H _ (H + 1) _ _ (by omega)]
  simp

/-- Every cycle that returns against a client whose head is below the largest `int`: the
loop went through some number `m` of blocks, the client's answers for the numbers right
after the checkpoint, and left the ledger as `m` turns over them leave it. -/
theorem cycle_below_max (fuel : Nat) (c : Client) (visit : List String)
    (repo : inMemRepository) (res : CycleResult) (hmax : c.headBelowMax)
    (h : processNewBlocks fuel c visit repo = some res) :
    ∃ m : Nat,
      res.repo = (afterBlocks (repo.addresses.Range visit) (servedChain c) m
          (repo.blockNumber + 1) ⟨repo⟩).inMemRepository
        ∧ (∀ i : Nat, i < m →
            c.FetchBlockByNumber (repo.blockNumber + 1 + (i : Int))
              = .ok (servedChain c (repo.blockNumber + 1 + (i : Int))))
        ∧ (∀ H, c.FetchCurrentBlock = .ok H → repo.blockNumber + (m : Int) ≤ max repo.blockNumber H)
        := by
  cases hh : c.FetchCurrentBlock with
  | error e =>
    rw [processNewBlocks_idle_of_error fuel c visit repo e hh] at h
    have hres : res = ⟨repo, [], .headFetchFailed⟩ := by
      injection h with h'
      exact h'.symm
    subst hres
    exact ⟨0, rfl, fun i hi => absurd hi (Nat.not_lt_zero i), fun H hH => by cases hH⟩
  | ok H =>
    by_cases hle : H ≤ repo.blockNumber
    · rw [processNewBlocks_idle_of_le fuel c visit repo H hh hle] at h
      have hres : res = ⟨repo, [], .upToDate⟩ := by
        injection h with h'
        exact h'.symm
      subst hres
      refine ⟨0, rfl, fun i hi => absurd hi (Nat.not_lt_zero i), fun H1 _ => ?_⟩
      simp
    · have hlt : repo.blockNumber < H := not_le.mp hle
      obtain ⟨s1, s2, s3⟩ := servedCount_spec c (H - repo.blockNumber).toNat
        (repo.blockNumber + 1)
      have hbig := processNewBlocks_mono fuel ((H - repo.blockNumber).toNat + 1) c visit repo
        res h
      have hbound : ∀ H1, Except.ok H = (Except.ok H1 : Except Error Int) →
          repo.blockNumber + (servedCount c (H - repo.blockNumber).toNat
            (repo.blockNumber + 1) : Int) ≤ max repo.blockNumber H1 := by
        intro H1 hH1
        have : H = H1 := by injection hH1
        subst this
        rw [max_eq_right (le_of_lt hlt)]
        omega
      by_cases hs : servedCount c (H - repo.blockNumber).toNat (repo.blockNumber + 1)
          < (H - repo.blockNumber).toNat
      · obtain ⟨e, he⟩ := s3 hs
        have hb : (repo.blockNumber + 1
            + (servedCount c (H - repo.blockNumber).toNat (repo.blockNumber + 1) : Int)
            - 1 - repo.blockNumber).toNat
            = servedCount c (H - repo.blockNumber).toNat (repo.blockNumber + 1) := by omega
        have hfail := cycle_fails_at (fuel + ((H - repo.blockNumber).toNat + 1)) c visit repo
          H (repo.blockNumber + 1
            + (servedCount c (H - repo.blockNumber).toNat (repo.blockNumber + 1) : Int))
          (servedChain c) e hh (by omega) (by omega)
          (fun k hk1 hk2 => by
            have := s2 (k - (repo.blockNumber + 1)).toNat (by omega)
            have ek : repo.blockNumber + 1 + (((k - (repo.blockNumber + 1)).toNat : Nat) : Int)
                = k := by omega
            rwa [ek] at this)
          he (by omega)
        rw [hbig, hb] at hfail
        have hres := Option.some.inj hfail
        refine ⟨servedCount c (H - repo.blockNumber).toNat (repo.blockNumber + 1), ?_, s2,
          hbound⟩
        rw [hres]
      · have hseq : servedCount c (H - repo.blockNumber).toNat (repo.blockNumber + 1)
            = (H - repo.blockNumber).toNat := by omega
        have hcom := cycle_commits (fuel + ((H - repo.blockNumber).toNat + 1)) c visit repo H
          (servedChain c) hh hlt (hmax H hh)
          (fun k hk1 hk2 => by
            have := s2 (k - (repo.blockNumber + 1)).toNat (by omega)
            have ek : repo.blockNumber + 1 + (((k - (repo.blockNumber + 1)).toNat : Nat) : Int)
                = k := by omega
            rwa [ek] at this)
          (by omega)
        rw [hbig] at hcom
        have hres := Option.some.inj hcom
        refine ⟨(H - repo.blockNumber).toNat, ?_, ?_, ?_⟩
        · rw [hres]
        · rw [← hseq]
          exact s2
        · rw [← hseq]
          exact hbound

/-- Against a client whose head is below the largest `int`, a cycle returns when its loop
may make one turn more than there are blocks after the checkpoint up to the head. -/
theorem cycle_returns_below_max (fuel : Nat) (c : Client) (visit : List String)
    (repo : inMemRepository) (hmax : c.headBelowMax)
    (hfuel : ∀ H, c.FetchCurrentBlock = .ok H → (H - repo.blockNumber).toNat < fuel) :
    ∃ res, processNewBlocks fuel c visit repo = some res := by
  cases hh : c.FetchCurrentBlock with
  | error e => exact ⟨_, processNewBlocks_idle_of_error fuel c visit repo e hh⟩
  | ok H =>
    by_cases hle : H ≤ repo.blockNumber
    · exact ⟨_, processNewBlocks_idle_of_le fuel c visit repo H hh hle⟩
    · have hlt : repo.blockNumber < H := not_le.mp hle
      have hf := hfuel H hh
      obtain ⟨s1, s2, s3⟩ := servedCount_spec c (H - repo.blockNumber).toNat
        (repo.blockNumber + 1)
      have hserved : ∀ k, repo.blockNumber < k →
          k < repo.blockNumber + 1
            + (servedCount c (H - repo.blockNumber).toNat (repo.blockNumber + 1) : Int) →
          c.FetchBlockByNumber k = .ok (servedChain c k) := by
        intro k hk1 hk2
        have := s2 (k - (repo.blockNumber + 1)).toNat (by omega)
        have ek : repo.blockNumber + 1 + (((k - (repo.blockNumber + 1)).toNat : Nat) : Int)
            = k := by omega
        rwa [ek] at this
      by_cases hs : servedCount c (H - repo.blockNumber).toNat (repo.blockNumber + 1)
          < (H - repo.blockNumber).toNat
      · obtain ⟨e, he⟩ := s3 hs
        exact ⟨_, cycle_fails_at fuel c visit repo H _ (servedChain c) e hh (by omega)
          (by omega) hserved he (by omega)⟩
      · exact ⟨_, cycle_commits fuel c visit repo H (servedChain c) hh hlt (hmax H hh)
          (fun k hk1 hk2 => hserved k hk1 (by omega)) hf⟩

/-- Against a client whose head is below the largest `int`, what a cycle that returns leaves,
seen through the ledger's operations: the checkpoint has moved forward by the number `m`
of blocks gone through and not beyond the head, the addresses are the same, and every
registered bucket has gained the matching transactions of the `m` blocks after the old
checkpoint, in ascending order. -/
theorem cycle_below_max_ledger (fuel : Nat) (c : Client) (visit : List String)
    (repo : inMemRepository) (res : CycleResult) (hmax : c.headBelowMax)
    (h : processNewBlocks fuel c visit repo = some res) :
    ∃ m : Nat,
      res.repo.blockNumber = repo.blockNumber + (m : Int)
        ∧ (∀ H, c.FetchCurrentBlock = .ok H →
            repo.blockNumber + (m : Int) ≤ max repo.blockNumber H)
        ∧ res.repo.addresses = repo.addresses
        ∧ (∀ i : Nat, i < m →
            c.FetchBlockByNumber (repo.blockNumber + 1 + (i : Int))
              = .ok (servedChain c (repo.blockNumber + 1 + (i : Int))))
        ∧ ∀ a, res.repo.GetTransactions a
            = (repo.GetTransactions a).map (fun old =>
                old ++ matchingOf a (blocksFrom (servedChain c) (repo.blockNumber + 1) m)) := by
  obtain ⟨m, hm, hserved, hbound⟩ := cycle_below_max fuel c visit repo res hmax h
  obtain ⟨h1, h2, _, h4⟩ := afterBlocks_ledger repo visit (servedChain c) m
  rw [← hm] at h1 h2 h4
  exact ⟨m, h2, hbound, h1, hserved, h4⟩

/-- The loop is left at a failed block fetch or at the commit: with the in-memory ledger
the `AddTransaction`, `SetBlockNumber` and `Commit` error branches are never taken, whatever
the client does and wherever the counter goes. -/
theorem catchUp_exit (c : Client) (subs : List String) (H : Int) (hnd : subs.Nodup) :
    ∀ (fuel : Nat) (block : Int) (r : inMemTransaction) (req : List Int) (res : CycleResult),
      (∀ a ∈ subs, a ∈ r.inMemRepository.addresses.keys) →
      catchUp c subs H fuel block r req = some res →
      res.exit = .committed ∨ ∃ b, res.exit = .blockFetchFailed b := by
  intro fuel
  induction fuel with
  | zero =>
    intro block r req res _ h
    simp [catchUp] at h
  | succ fuel ih =>
    intro block r req res hreg h
    by_cases hle : block ≤ H
    · cases hf : c.FetchBlockByNumber block with
      | error e =>
        rw [catchUp_step_error c subs H fuel block r req e hle hf] at h
        have hres := Option.some.inj h
        rw [← hres]
        exact Or.inr ⟨block, rfl⟩
      | ok bd =>
        rw [catchUp_step_ok c subs H hnd fuel block r req bd hle hreg hf] at h
        obtain ⟨t1, _, _⟩ := turn_spec subs hnd bd.Transactions block r hreg
        exact ih _ _ _ res (fun a ha => by rw [t1]; exact hreg a ha) h
    · rw [catchUp_step_done c subs H fuel block r req hle] at h
      have hres := Option.some.inj h
      rw [← hres]
      exact Or.inl rfl

/-- The `return`s a cycle takes against the in-memory ledger: the failed head fetch, the
check that there is nothing to do, a failed block fetch, or the end after the commit. -/
theorem cycle_exit_cases (fuel : Nat) (c : Client) (visit : List String)
    (repo : inMemRepository) (res : CycleResult)
    (h : processNewBlocks fuel c visit repo = some res) :
    res.exit = .headFetchFailed ∨ res.exit = .upToDate ∨ res.exit = .committed
      ∨ ∃ b, res.exit = .blockFetchFailed b := by
  cases hh : c.FetchCurrentBlock with
  | error e =>
    rw [processNewBlocks_idle_of_error fuel c visit repo e hh] at h
    have hres := Option.some.inj h
    rw [← hres]
    exact Or.inl rfl
  | ok H =>
    by_cases hle : H ≤ repo.blockNumber
    · rw [processNewBlocks_idle_of_le fuel c visit repo H hh hle] at h
      have hres := Option.some.inj h
      rw [← hres]
      exact Or.inr (Or.inl rfl)
    · rw [processNewBlocks_catchUp fuel c visit repo H hh (not_le.mp hle)] at h
      exact Or.inr (Or.inr (catchUp_exit c _ H (Range_nodup repo.addresses visit) fuel
        (repo.blockNumber + 1) ⟨repo⟩ [] res (Range_registered repo visit) h))

/-! ## C1: a cycle that fails at a block fetch -/

/-- C1, as stated, fails.  With the checkpoint at 4, blocks 5 and 6 processed and the fetch of
block 7 failing, the cycle leaves the checkpoint at 6, not 4, and the transaction of block 5
is in the bucket of `0x123`: the ledger is not what it was before the cycle. -/
theorem cycle_atomicity_fails :
    ledgerAt4.GetBlockNumber = .ok 4
      ∧ clientFailingAt7.FetchCurrentBlock = .ok 7
      ∧ (processNewBlocks 3 clientFailingAt7 ["0x123"] ledgerAt4).map (fun r => r.requested)
          = some [5, 6, 7]
      ∧ (processNewBlocks 3 clientFailingAt7 ["0x123"] ledgerAt4).map (fun r => r.exit)
          = some (.blockFetchFailed 7)
      ∧ (processNewBlocks 3 clientFailingAt7 ["0x123"] ledgerAt4).map
            (fun r => r.repo.GetBlockNumber) = some (.ok 6)
      ∧ ledgerAt4.GetTransactions "0x123" = .ok [seedTransaction]
      ∧ (processNewBlocks 3 clientFailingAt7 ["0x123"] ledgerAt4).map
            (fun r => r.repo.GetTransactions "0x123")
          = some (.ok [seedTransaction, txOfBlock5])
      ∧ ¬ ∃ res, processNewBlocks 3 clientFailingAt7 ["0x123"] ledgerAt4 = some res
            ∧ res.repo.GetBlockNumber = ledgerAt4.GetBlockNumber
            ∧ ∀ a, res.repo.GetTransactions a = ledgerAt4.GetTransactions a := by
  refine ⟨by decide, by decide, by decide, by decide, by decide, by decide, by decide, ?_⟩
  rintro ⟨res, hres, hb, _⟩
  have h6 : (processNewBlocks 3 clientFailingAt7 ["0x123"] ledgerAt4).map
      (fun r => r.repo.GetBlockNumber) = some (.ok 6) := by decide
  rw [hres, Option.map_some', hb] at h6
  exact absurd h6 (by decide)

/-- C1, amended.  When the head is `H`, the blocks after the checkpoint `C` and before `b`
are served and the fetch of `b` in `(C, H]` fails, the cycle, given the `b - C` turns of its
loop, returns at that fetch and the work done so far stays, whatever the order in which the
addresses are listed: the checkpoint is `b - 1`, the registered addresses are the same, and
every registered bucket is its old content followed by the matching transactions of blocks
`C + 1 .. b - 1` (an unregistered address stays not found).  The ledger is unchanged only
when `b = C + 1`. -/
theorem failed_cycle_keeps_processed_blocks (fuel : Nat) (c : Client) (visit : List String)
    (repo : inMemRepository) (H b : Int)
    (chain : Int → Block) (e : Error)
    (hh : c.FetchCurrentBlock = .ok H) (hCb : repo.blockNumber < b) (hbH : b ≤ H)
    (hok : ∀ k, repo.blockNumber < k → k < b → c.FetchBlockByNumber k = .ok (chain k))
    (hfail : c.FetchBlockByNumber b = .error e)
    (hfuel : (b - repo.blockNumber).toNat ≤ fuel) :
    ∃ res, processNewBlocks fuel c visit repo = some res
      ∧ res.exit = .blockFetchFailed b
      ∧ res.repo.GetBlockNumber = .ok (b - 1)
      ∧ (∀ v, res.repo.GetAddresses v = repo.GetAddresses v)
      ∧ ∀ a, res.repo.GetTransactions a
          = (repo.GetTransactions a).map (fun old =>
              old ++ matchingOf a
                (blocksFrom chain (repo.blockNumber + 1) (b - 1 - repo.blockNumber).toNat)) := by
  obtain ⟨h1, h2, _, h4⟩ := afterBlocks_ledger repo visit chain (b - 1 - repo.blockNumber).toNat
  refine ⟨_, cycle_fails_at fuel c visit repo H b chain e hh hCb hbH hok hfail hfuel, rfl,
    ?_, ?_, h4⟩
  · simp only [inMemRepository.GetBlockNumber, h2]
    congr 1
    omega
  · intro v
    simp only [inMemRepository.GetAddresses, h1]

theorem failed_cycle_keeps_processed_blocks_witness :
    clientFailingAt7.FetchCurrentBlock = .ok 7
      ∧ ledgerAt4.blockNumber < 7
      ∧ (7 : Int) ≤ 7
      ∧ (∀ k, ledgerAt4.blockNumber < k → k < 7 →
          clientFailingAt7.FetchBlockByNumber k = .ok (chain567 k))
      ∧ clientFailingAt7.FetchBlockByNumber 7 = .error (Error.Other "could not make request")
      ∧ (7 - ledgerAt4.blockNumber).toNat ≤ 3
      ∧ ∃ res, processNewBlocks 3 clientFailingAt7 ["0x123"] ledgerAt4 = some res
        ∧ res.exit = .blockFetchFailed 7
        ∧ res.repo.GetBlockNumber = .ok (7 - 1)
        ∧ (∀ v, res.repo.GetAddresses v = ledgerAt4.GetAddresses v)
        ∧ ∀ a, res.repo.GetTransactions a
            = (ledgerAt4.GetTransactions a).map (fun old =>
                old ++ matchingOf a
                  (blocksFrom chain567 (ledgerAt4.blockNumber + 1)
                    (7 - 1 - ledgerAt4.blockNumber).toNat)) :=
  have hok : ∀ k, ledgerAt4.blockNumber < k → k < 7 →
      clientFailingAt7.FetchBlockByNumber k = .ok (chain567 k) := by
    intro k _ hk
    have hne : ¬ k = 7 := by omega
    simp only [clientFailingAt7, hne, if_false]
  ⟨rfl, by decide, by decide, hok, rfl, by decide,
    failed_cycle_keeps_processed_blocks 3 clientFailingAt7 ["0x123"] ledgerAt4 7 7 chain567
      (Error.Other "could not make request") rfl (by decide) (by decide) hok rfl (by decide)⟩

/-! ## C2, C3 and C19: a head at the largest `int`

The loop counter of `processNewBlocks` is a 64-bit `int`.  When the head is the largest such
number, `block++` after the turn for the head wraps to the smallest one, the test
`block <= lastMinedBlock` holds again and the loop goes on from there.  The three statements
below evaluate one cycle at such a head: the ledger `ledgerBelowMax`, whose checkpoint is
`maxInt64 - 1`, against `clientAtMaxInt64`. -/

/-- C2 at a head equal to the largest `int`: the checkpoint read before the cycle is
`maxInt64 - 1`, the cycle returns, and the checkpoint read after it is `minInt64`, which is
smaller.  The loop asked for block `maxInt64`, then for `minInt64`, then for
`minInt64 + 1`. -/
theorem checkpoint_goes_back_at_largest_head :
    clientAtMaxInt64.FetchCurrentBlock = .ok maxInt64
      ∧ ledgerBelowMax.GetBlockNumber = .ok (maxInt64 - 1)
      ∧ (processNewBlocks 3 clientAtMaxInt64 ["0x123"] ledgerBelowMax).map
            (fun r => r.requested) = some [maxInt64, minInt64, minInt64 + 1]
      ∧ (processNewBlocks 3 clientAtMaxInt64 ["0x123"] ledgerBelowMax).map
            (fun r => r.repo.GetBlockNumber) = some (.ok minInt64)
      ∧ minInt64 < maxInt64 - 1 := by
  refine ⟨by decide, by decide, by decide, by decide, by decide⟩

/-- C3 at a head equal to the largest `int`: the only block after the checkpoint
`maxInt64 - 1` and up to the head `maxInt64` is block `maxInt64`, and its fetch succeeds; yet
the cycle does not end with the commit but at the failed fetch of block `minInt64 + 1`, the
checkpoint after it is `minInt64`, not the head, and the bucket of `0x123` holds, after the
matching transaction of block `maxInt64`, the transaction the client answered for
`minInt64`. -/
theorem served_cycle_overruns_largest_head :
    clientAtMaxInt64.FetchCurrentBlock = .ok maxInt64
      ∧ ledgerBelowMax.GetBlockNumber = .ok (maxInt64 - 1)
      ∧ (∀ k, maxInt64 - 1 < k → k ≤ maxInt64 →
          clientAtMaxInt64.FetchBlockByNumber k = .ok ⟨"0x7fffffffffffffff", [txAtMax]⟩)
      ∧ (processNewBlocks 3 clientAtMaxInt64 ["0x123"] ledgerBelowMax).map (fun r => r.exit)
          = some (.blockFetchFailed (minInt64 + 1))
      ∧ (processNewBlocks 3 clientAtMaxInt64 ["0x123"] ledgerBelowMax).map
            (fun r => r.repo.GetBlockNumber) = some (.ok minInt64)
      ∧ ledgerBelowMax.GetTransactions "0x123" = .ok [seedTransaction]
      ∧ (processNewBlocks 3 clientAtMaxInt64 ["0x123"] ledgerBelowMax).map
            (fun r => r.repo.GetTransactions "0x123")
          = some (.ok [seedTransaction, txAtMax, txAtMin]) := by
  refine ⟨by decide, by decide, ?_, by decide, by decide, by decide, by decide⟩
  intro k h1 h2
  have hk : k = maxInt64 := by omega
  subst hk
  rfl

/-- C19 at a head equal to the largest `int`: with the checkpoint `C = maxInt64 - 1` before
the cycle and `C1 = minInt64` after it, `C ≤ C1` fails, and the bucket of `0x123`, an address
registered at the start, has gained the transaction of block `maxInt64`, a block above
`C1`. -/
theorem cycle_prefix_broken_at_largest_head :
    ledgerBelowMax.registered "0x123"
      ∧ (processNewBlocks 3 clientAtMaxInt64 ["0x123"] ledgerBelowMax).map
            (fun r => r.repo.blockNumber) = some minInt64
      ∧ ¬ ledgerBelowMax.blockNumber ≤ minInt64
      ∧ clientAtMaxInt64.FetchBlockByNumber maxInt64 = .ok ⟨"0x7fffffffffffffff", [txAtMax]⟩
      ∧ minInt64 < maxInt64
      ∧ (processNewBlocks 3 clientAtMaxInt64 ["0x123"] ledgerBelowMax).map
            (fun r => decide (txAtMax ∈ r.repo.bucket "0x123")) = some true
      ∧ txAtMax ∉ ledgerBelowMax.bucket "0x123" := by
  refine ⟨by decide, by decide, by decide, by decide, by decide, by decide, by decide⟩

/-! ## C4: a bucket holds only transactions of its address -/

theorem AddAddress_frame (repo : inMemRepository) (a : String) :
    (repo.AddAddress a).1.transactions = repo.transactions
      ∧ (repo.AddAddress a).1.blockNumber = repo.blockNumber := by
  unfold inMemRepository.AddAddress SyncMap.LoadOrStore
  by_cases h : a ∈ repo.addresses.keys
  · simp [h]
  · simp [h]

theorem AddAddress_bucket (repo : inMemRepository) (a x : String) :
    (repo.AddAddress a).1.bucket x = repo.bucket x := by
  simp only [inMemRepository.bucket, (AddAddress_frame repo a).1]

theorem updateBlockNumber_frame (c : Client) (repo : inMemRepository) :
    (updateBlockNumber c repo).1.transactions = repo.transactions
      ∧ (updateBlockNumber c repo).1.addresses = repo.addresses := by
  unfold updateBlockNumber
  cases c.FetchCurrentBlock with
  | error e => exact ⟨rfl, rfl⟩
  | ok H => exact ⟨rfl, rfl⟩

theorem updateBlockNumber_bucket (c : Client) (repo : inMemRepository) (x : String) :
    (updateBlockNumber c repo).1.bucket x = repo.bucket x := by
  simp only [inMemRepository.bucket, (updateBlockNumber_frame c repo).1]

theorem fresh_bucket (x : String) :
    NewInmemTransactionRepository.bucket x = if x = "0x123" then [seedTransaction] else [] := by
  unfold inMemRepository.bucket NewInmemTransactionRepository
  by_cases h : x = "0x123"
  · simp [h]
  · simp [h]

theorem reachable_owned (repo : inMemRepository) (h : Reachable repo) :
    ∀ a t, t ∈ repo.bucket a → t.From = a ∨ t.To = a := by
  induction h with
  | fresh =>
    intro a t ht
    rw [fresh_bucket] at ht
    by_cases ha : a = "0x123"
    · rw [if_pos ha, List.mem_singleton] at ht
      subst ht
      left
      rw [ha]
      rfl
    · rw [if_neg ha] at ht
      exact absurd ht (List.not_mem_nil t)
  | register repo address _ ih =>
    intro a t ht
    rw [AddAddress_bucket] at ht
    exact ih a t ht
  | bootstrap repo c _ ih =>
    intro a t ht
    rw [updateBlockNumber_bucket] at ht
    exact ih a t ht
  | cycle repo c fuel visit res _ hres ih =>
    intro a t ht
    obtain ⟨_, blocks, hb⟩ := processNewBlocks_general fuel c visit repo res hres
    rw [hb a, List.mem_append] at ht
    rcases ht with ht | ht
    · exact ih a t ht
    · by_cases ha : a ∈ repo.addresses.keys
      · rw [if_pos ha] at ht
        exact ((mem_matchingOf _ _ _).mp ht).2
      · rw [if_neg ha] at ht
        exact absurd ht (List.not_mem_nil t)

/-- C4.  In every ledger state reachable from the freshly created ledger by address
registrations, the startup step and ingestion cycles, every transaction stored in the bucket
of an address, and so every transaction `GetTransactions` returns for it, has that address as
its sender or its receiver. -/
theorem ownership_invariant (repo : inMemRepository) (h : Reachable repo) :
    (∀ a t, t ∈ repo.bucket a → t.From = a ∨ t.To = a)
      ∧ ∀ a txs, repo.GetTransactions a = .ok txs → ∀ t ∈ txs, t.From = a ∨ t.To = a := by
  refine ⟨reachable_owned repo h, ?_⟩
  intro a txs hget t ht
  rw [GetTransactions_eq] at hget
  by_cases ha : a ∈ repo.addresses.keys
  · rw [if_pos ha] at hget
    have : repo.bucket a = txs := by injection hget
    exact reachable_owned repo h a t (this ▸ ht)
  · rw [if_neg ha] at hget
    cases hget

theorem ownership_invariant_witness :
    ∃ res, processNewBlocks 11 clientServing10 ["0x123", "0xA"]
          (NewInmemTransactionRepository.AddAddress "0xA").1 = some res
      ∧ Reachable res.repo
      ∧ res.repo.GetTransactions "0xA" = .ok [txH1]
      ∧ (txH1.From = "0xA" ∨ txH1.To = "0xA") :=
  have hs : (processNewBlocks 11 clientServing10 ["0x123", "0xA"]
      (NewInmemTransactionRepository.AddAddress "0xA").1).isSome = true := by decide
  have hres : processNewBlocks 11 clientServing10 ["0x123", "0xA"]
      (NewInmemTransactionRepository.AddAddress "0xA").1 = some (Option.get _ hs) :=
    (Option.some_get hs).symm
  have hr : Reachable (Option.get _ hs).repo :=
    Reachable.cycle _ clientServing10 11 ["0x123", "0xA"] _
      (Reachable.register _ "0xA" Reachable.fresh) hres
  have hm : (processNewBlocks 11 clientServing10 ["0x123", "0xA"]
      (NewInmemTransactionRepository.AddAddress "0xA").1).map
        (fun r => r.repo.GetTransactions "0xA") = some (.ok [txH1]) := by decide
  have hg : (Option.get _ hs).repo.GetTransactions "0xA" = .ok [txH1] := by
    rw [hres, Option.map_some'] at hm
    exact Option.some.inj hm
  ⟨_, hres, hr, hg,
    (ownership_invariant _ hr).2 "0xA" [txH1] hg txH1 (List.mem_singleton.mpr rfl)⟩

/-! ## C5: block numbers of visible transactions against the checkpoint -/

theorem beforeStart_only_seed (repo : inMemRepository) (h : BeforeStart repo) :
    ∀ a t, t ∈ repo.bucket a → t = seedTransaction := by
  induction h with
  | fresh =>
    intro a t ht
    rw [fresh_bucket] at ht
    by_cases ha : a = "0x123"
    · rw [if_pos ha, List.mem_singleton] at ht
      exact ht
    · rw [if_neg ha] at ht
      exact absurd ht (List.not_mem_nil t)
  | register repo address _ ih =>
    intro a t ht
    rw [AddAddress_bucket] at ht
    exact ih a t ht

theorem started_visible (repo : inMemRepository) (h : Started repo) :
    ∀ a t, t ∈ repo.bucket a →
      t = seedTransaction
        ∨ ∃ n, decodeBlockNumber t.BlockNumber = .ok n ∧ n ≤ repo.blockNumber := by
  induction h with
  | boot repo c hb _ =>
    intro a t ht
    rw [updateBlockNumber_bucket] at ht
    exact Or.inl (beforeStart_only_seed repo hb a t ht)
  | register repo address _ ih =>
    intro a t ht
    rw [AddAddress_bucket] at ht
    rw [(AddAddress_frame repo address).2]
    exact ih a t ht
  | cycle repo c fuel visit res _ hlab hmax hres ih =>
    intro a t ht
    obtain ⟨m, hm, hserved, _⟩ := cycle_below_max fuel c visit repo res hmax hres
    obtain ⟨_, hcp, hb, _⟩ := afterBlocks_ledger repo visit (servedChain c) m
    rw [hm, hb a, List.mem_append] at ht
    rw [hm, hcp]
    rcases ht with ht | ht
    · rcases ih a t ht with hs | ⟨n, hn, hle⟩
      · exact Or.inl hs
      · exact Or.inr ⟨n, hn, by omega⟩
    · by_cases ha : a ∈ repo.addresses.keys
      · rw [if_pos ha] at ht
        have hmem := ((mem_matchingOf _ _ _).mp ht).1
        obtain ⟨bd, hbd, htb⟩ := List.mem_flatMap.mp hmem
        obtain ⟨i, hi, hbi⟩ := List.mem_map.mp hbd
        have hi1 : i < m := List.mem_range.mp hi
        have hf := hserved i hi1
        rw [hbi] at hf
        exact Or.inr ⟨repo.blockNumber + 1 + (i : Int), hlab _ bd hf t htb, by omega⟩
      · rw [if_neg ha] at ht
        exact absurd ht (List.not_mem_nil t)

/-- C5, as stated, fails.  In the freshly created ledger the seeded transaction is visible
under `0x123` with block number `20000000` (536870912 read in base 16, as the client reads
block numbers; 20000000 in base 10) while the checkpoint is 0.  Two more ways in which a
visible block number exceeds the checkpoint: a startup step run after a cycle moves the
checkpoint back (from 10 to 3, with a transaction of block 10 visible), and the ledger stores
the `BlockNumber` the client sends without comparing it with the number of the block asked
for (a transaction labelled 100 served in block 1). -/
theorem visibility_invariant_fails :
    (Reachable NewInmemTransactionRepository
        ∧ NewInmemTransactionRepository.GetTransactions "0x123" = .ok [seedTransaction]
        ∧ seedTransaction.BlockNumber = "20000000"
        ∧ decodeBlockNumber seedTransaction.BlockNumber = .ok 536870912
        ∧ NewInmemTransactionRepository.GetBlockNumber = .ok 0
        ∧ ¬ ((536870912 : Int) ≤ 0) ∧ ¬ ((20000000 : Int) ≤ 0))
      ∧ ((processNewBlocks 11 clientServing10 ["0x123", "0xA"]
              (NewInmemTransactionRepository.AddAddress "0xA").1).map
            (fun r => (updateBlockNumber clientHead3 r.repo).1.GetBlockNumber)
            = some (.ok 3)
          ∧ (processNewBlocks 11 clientServing10 ["0x123", "0xA"]
              (NewInmemTransactionRepository.AddAddress "0xA").1).map
            (fun r => (updateBlockNumber clientHead3 r.repo).1.GetTransactions "0xA")
            = some (.ok [txH1])
          ∧ decodeBlockNumber txH1.BlockNumber = .ok 10)
      ∧ ((processNewBlocks 2 clientMislabelling ["0x123"] NewInmemTransactionRepository).map
            (fun r => r.repo.GetBlockNumber) = some (.ok 1)
          ∧ (processNewBlocks 2 clientMislabelling ["0x123"]
              NewInmemTransactionRepository).map (fun r => r.repo.GetTransactions "0x123")
              = some (.ok [seedTransaction, txLabelled100])
          ∧ decodeBlockNumber txLabelled100.BlockNumber = .ok 100) := by
  refine ⟨⟨Reachable.fresh, ?_, ?_, ?_, ?_, ?_, ?_⟩, ⟨?_, ?_, ?_⟩, ⟨?_, ?_, ?_⟩⟩ <;> decide

/-- C5, amended.  Once the startup step has run (once, on the freshly created ledger with
any registrations made before it), and through any later registrations and ingestion cycles,
failed ones included, against a client that labels each transaction with the number of the
block it serves it in and whose head is below the largest 64-bit integer: every transaction
visible through `GetTransactions` under any address is the seeded transaction or carries a
block number that is at most the checkpoint. -/
theorem visibility_after_start (repo : inMemRepository) (h : Started repo) :
    ∀ a txs, repo.GetTransactions a = .ok txs → ∀ t ∈ txs,
      t = seedTransaction
        ∨ ∃ n C, decodeBlockNumber t.BlockNumber = .ok n
            ∧ repo.GetBlockNumber = .ok C ∧ n ≤ C := by
  intro a txs hget t ht
  rw [GetTransactions_eq] at hget
  by_cases ha : a ∈ repo.addresses.keys
  · rw [if_pos ha] at hget
    have hb : repo.bucket a = txs := by injection hget
    rcases started_visible repo h a t (hb ▸ ht) with hs | ⟨n, hn, hle⟩
    · exact Or.inl hs
    · exact Or.inr ⟨n, repo.blockNumber, hn, rfl, hle⟩
  · rw [if_neg ha] at hget
    cases hget

theorem clientLabelling10_labels : clientLabelling10.labelsBlocks := by
  intro n bd hf t ht
  by_cases hn : n = 10
  · subst hn
    have hbd : bd = chain10 10 := by
      have : Except.ok (chain10 10) = (Except.ok bd : Except Error Block) := hf
      injection this with h
      exact h.symm
    subst hbd
    have : t = txH1 := by simpa [chain10] using ht
    subst this
    decide
  · have hbd : bd = ⟨"", []⟩ := by
      have : (Except.ok ⟨"", []⟩ : Except Error Block) = Except.ok bd := by
        simpa [clientLabelling10, hn] using hf
      injection this with h
      exact h.symm
    subst hbd
    exact absurd ht (List.not_mem_nil t)

theorem clientLabelling10_headBelowMax : clientLabelling10.headBelowMax := by
  intro H hH
  have : (10 : Int) = H := by
    have h1 : (Except.ok 10 : Except Error Int) = Except.ok H := hH
    injection h1
  subst this
  decide

theorem visibility_after_start_witness :
    ∃ res, processNewBlocks 8 clientLabelling10 ["0xA", "0x123"]
          (updateBlockNumber clientHead3
            (NewInmemTransactionRepository.AddAddress "0xA").1).1 = some res
      ∧ Started res.repo
      ∧ res.repo.GetTransactions "0xA" = .ok [txH1]
      ∧ (txH1 = seedTransaction
          ∨ ∃ n C, decodeBlockNumber txH1.BlockNumber = .ok n
              ∧ res.repo.GetBlockNumber = .ok C ∧ n ≤ C) :=
  have hs : (processNewBlocks 8 clientLabelling10 ["0xA", "0x123"]
      (updateBlockNumber clientHead3
        (NewInmemTransactionRepository.AddAddress "0xA").1).1).isSome = true := by decide
  have hres : processNewBlocks 8 clientLabelling10 ["0xA", "0x123"]
      (updateBlockNumber clientHead3
        (NewInmemTransactionRepository.AddAddress "0xA").1).1 = some (Option.get _ hs) :=
    (Option.some_get hs).symm
  have hst : Started (Option.get _ hs).repo :=
    Started.cycle _ clientLabelling10 8 ["0xA", "0x123"] _
      (Started.boot _ clientHead3 (BeforeStart.register _ "0xA" BeforeStart.fresh) rfl)
      clientLabelling10_labels clientLabelling10_headBelowMax hres
  have hm : (processNewBlocks 8 clientLabelling10 ["0xA", "0x123"]
      (updateBlockNumber clientHead3
        (NewInmemTransactionRepository.AddAddress "0xA").1).1).map
        (fun r => r.repo.GetTransactions "0xA") = some (.ok [txH1]) := by decide
  have hg : (Option.get _ hs).repo.GetTransactions "0xA" = .ok [txH1] := by
    rw [hres, Option.map_some'] at hm
    exact Option.some.inj hm
  ⟨_, hres, hst, hg,
    visibility_after_start _ hst "0xA" [txH1] hg txH1 (List.mem_singleton.mpr rfl)⟩

/-! ## C6: a failed cycle followed by a retry -/

/-- The failed cycle of `cycle_fails_at`, seen through the ledger's operations. -/
theorem cycle_fails_at_ledger (fuel : Nat) (c : Client) (visit : List String)
    (repo : inMemRepository) (H b : Int) (chain : Int → Block) (e : Error)
    (hh : c.FetchCurrentBlock = .ok H) (hCb : repo.blockNumber < b) (hbH : b ≤ H)
    (hok : ∀ k, repo.blockNumber < k → k < b → c.FetchBlockByNumber k = .ok (chain k))
    (hfail : c.FetchBlockByNumber b = .error e)
    (hfuel : (b - repo.blockNumber).toNat ≤ fuel) :
    ∃ res, processNewBlocks fuel c visit repo = some res
      ∧ res.exit = .blockFetchFailed b
      ∧ res.repo.addresses = repo.addresses
      ∧ res.repo.blockNumber = b - 1
      ∧ ∀ a, res.repo.GetTransactions a
          = (repo.GetTransactions a).map (fun old =>
              old ++ matchingOf a
                (blocksFrom chain (repo.blockNumber + 1) (b - 1 - repo.blockNumber).toNat)) := by
  obtain ⟨h1, h2, _, h4⟩ := afterBlocks_ledger repo visit chain (b - 1 - repo.blockNumber).toNat
  refine ⟨_, cycle_fails_at fuel c visit repo H b chain e hh hCb hbH hok hfail hfuel, rfl,
    h1, ?_, h4⟩
  rw [h2]
  omega

/-- The committed cycle of `cycle_commits`, seen through the ledger's operations. -/
theorem cycle_commits_ledger (fuel : Nat) (c : Client) (visit : List String)
    (repo : inMemRepository) (H : Int) (chain : Int → Block)
    (hh : c.FetchCurrentBlock = .ok H) (hlt : repo.blockNumber < H) (hmax : H < maxInt64)
    (hok : ∀ k, repo.blockNumber < k → k ≤ H → c.FetchBlockByNumber k = .ok (chain k))
    (hfuel : (H - repo.blockNumber).toNat < fuel) :
    ∃ res, processNewBlocks fuel c visit repo = some res
      ∧ res.exit = .committed
      ∧ res.requested = (List.range (H - repo.blockNumber).toNat).map
          (fun (i : Nat) => repo.blockNumber + 1 + (i : Int))
      ∧ res.repo.addresses = repo.addresses
      ∧ res.repo.blockNumber = H
      ∧ ∀ a, res.repo.GetTransactions a
          = (repo.GetTransactions a).map (fun old =>
              old ++ matchingOf a
                (blocksFrom chain (repo.blockNumber + 1) (H - repo.blockNumber).toNat)) := by
  obtain ⟨h1, h2, _, h4⟩ := afterBlocks_ledger repo visit chain (H - repo.blockNumber).toNat
  refine ⟨_, cycle_commits fuel c visit repo H chain hh hlt hmax hok hfuel, rfl, rfl,
    h1, ?_, h4⟩
  rw [h2]
  omega

/-- A cycle that ends with the commit had a head below the largest `int`. -/
theorem committed_head_lt (fuel : Nat) (c : Client) (visit : List String)
    (repo : inMemRepository) (H : Int) (res : CycleResult)
    (hh : c.FetchCurrentBlock = .ok H)
    (h : processNewBlocks fuel c visit repo = some res) (hc : res.exit = .committed) :
    H < maxInt64 := by
  by_cases hle : H ≤ repo.blockNumber
  · rw [processNewBlocks_idle_of_le fuel c visit repo H hh hle] at h
    have hres := Option.some.inj h
    rw [← hres] at hc
    cases hc
  · have hlt : repo.blockNumber < H := not_le.mp hle
    have hH : H ≤ maxInt64 := (c.headIsInt64 H hh).2
    rw [processNewBlocks_catchUp fuel c visit repo H hh hlt] at h
    exact catchUp_committed_lt c _ H (Range_nodup repo.addresses visit) fuel
      (repo.blockNumber + 1) ⟨repo⟩ [] res (Range_registered repo visit) (by omega) h hc

/-- C6.  With the registered addresses and the chain contents fixed, take a cycle that fails
at the fetch of a block `b` in `(C, H]` and a retry in which every block up to the head `H`
is served.  The failed cycle returns at `b`, given `b - C` turns of its loop.  A retry that
ends with the commit had a head below the largest 64-bit integer.  With such a head the
retry, given turns for the blocks left, commits, and it leaves the checkpoint, the address
set and every bucket equal to what one successful cycle from `C` through `H` leaves; the
bucket of each registered address is its old content followed by the matching transactions
of blocks `C + 1 .. H`, each block counted once, so nothing is appended twice. -/
theorem retry_equals_single_cycle (repo : inMemRepository) (cFail cOk : Client)
    (H1 H b : Int) (chain : Int → Block) (e : Error)
    (hh1 : cFail.FetchCurrentBlock = .ok H1) (hh2 : cOk.FetchCurrentBlock = .ok H)
    (hCb : repo.blockNumber < b) (hbH1 : b ≤ H1) (hbH : b ≤ H)
    (hok1 : ∀ k, repo.blockNumber < k → k < b → cFail.FetchBlockByNumber k = .ok (chain k))
    (hfail : cFail.FetchBlockByNumber b = .error e)
    (hok2 : ∀ k, repo.blockNumber < k → k ≤ H → cOk.FetchBlockByNumber k = .ok (chain k)) :
    (∀ fuel visit, (b - repo.blockNumber).toNat ≤ fuel →
        ∃ f, processNewBlocks fuel cFail visit repo = some f
          ∧ f.exit = .blockFetchFailed b ∧ f.repo.GetBlockNumber = .ok (b - 1))
      ∧ (∀ fuel1 visit1 f fuel2 visit2 r,
          processNewBlocks fuel1 cFail visit1 repo = some f →
          processNewBlocks fuel2 cOk visit2 f.repo = some r →
          r.exit = .committed → H < maxInt64)
      ∧ (H < maxInt64 → ∀ fuel1 visit1 fuel2 visit2 fuel3 visit3,
          (b - repo.blockNumber).toNat ≤ fuel1 → (H - (b - 1)).toNat < fuel2 →
          (H - repo.blockNumber).toNat < fuel3 →
          ∃ f r s, processNewBlocks fuel1 cFail visit1 repo = some f
            ∧ processNewBlocks fuel2 cOk visit2 f.repo = some r
            ∧ processNewBlocks fuel3 cOk visit3 repo = some s
            ∧ f.exit = .blockFetchFailed b ∧ r.exit = .committed ∧ s.exit = .committed
            ∧ r.repo.GetBlockNumber = s.repo.GetBlockNumber
            ∧ r.repo.GetBlockNumber = .ok H
            ∧ (∀ v, r.repo.GetAddresses v = s.repo.GetAddresses v)
            ∧ (∀ a, r.repo.GetTransactions a = s.repo.GetTransactions a)
            ∧ (∀ a old, repo.GetTransactions a = .ok old →
                r.repo.GetTransactions a
                  = .ok (old ++
                      ((blocksFrom chain (repo.blockNumber + 1)
                          (H - repo.blockNumber).toNat).flatMap
                        fun blk => blk.Transactions).filter
                          (fun t => decide (t.From = a ∨ t.To = a))))) := by
  refine ⟨?_, ?_, ?_⟩
  · intro fuel visit hfuel
    obtain ⟨f, hf, hfe, _, hfb, _⟩ := cycle_fails_at_ledger fuel cFail visit repo H1 b chain e
      hh1 hCb hbH1 hok1 hfail hfuel
    exact ⟨f, hf, hfe, by simp only [inMemRepository.GetBlockNumber, hfb]⟩
  · intro fuel1 visit1 f fuel2 visit2 r _ hr hc
    exact committed_head_lt fuel2 cOk visit2 f.repo H r hh2 hr hc
  · intro hmax fuel1 visit1 fuel2 visit2 fuel3 visit3 hfuel1 hfuel2 hfuel3
    obtain ⟨f, hf, hfe, hfa, hfb, hft⟩ := cycle_fails_at_ledger fuel1 cFail visit1 repo H1 b
      chain e hh1 hCb hbH1 hok1 hfail hfuel1
    obtain ⟨r, hr, hre, _, hra, hrb, hrt⟩ := cycle_commits_ledger fuel2 cOk visit2 f.repo H
      chain hh2 (by rw [hfb]; omega) hmax
      (fun k hk1 hk2 => hok2 k (by rw [hfb] at hk1; omega) hk2) (by rw [hfb]; exact hfuel2)
    obtain ⟨s, hs, hse, _, hsa, hsb, hst⟩ := cycle_commits_ledger fuel3 cOk visit3 repo H
      chain hh2 (by omega) hmax hok2 hfuel3
    have hsplit : blocksFrom chain (repo.blockNumber + 1) (H - repo.blockNumber).toNat
        = blocksFrom chain (repo.blockNumber + 1) (b - 1 - repo.blockNumber).toNat
          ++ blocksFrom chain (f.repo.blockNumber + 1) (H - f.repo.blockNumber).toNat := by
      have e1 : (H - repo.blockNumber).toNat
          = (b - 1 - repo.blockNumber).toNat + (H - (b - 1)).toNat := by omega
      have e2 : repo.blockNumber + 1 + (((b - 1 - repo.blockNumber).toNat : Nat) : Int)
          = b - 1 + 1 := by omega
      rw [hfb, e1, blocksFrom_append, e2]
    have hget : ∀ a, r.repo.GetTransactions a
        = (repo.GetTransactions a).map (fun old =>
            old ++ matchingOf a
              (blocksFrom chain (repo.blockNumber + 1) (H - repo.blockNumber).toNat)) := by
      intro a
      rw [hrt a, hft a, hsplit, matchingOf_append]
      cases repo.GetTransactions a with
      | error err => rfl
      | ok old => simp [Except.map, List.append_assoc]
    refine ⟨f, r, s, hf, hr, hs, hfe, hre, hse, ?_, ?_, ?_, ?_, ?_⟩
    · simp only [inMemRepository.GetBlockNumber, hrb, hsb]
    · simp only [inMemRepository.GetBlockNumber, hrb]
    · intro v
      simp only [inMemRepository.GetAddresses, hra, hfa, hsa]
    · intro a
      rw [hget a, hst a]
    · intro a old hold
      rw [hget a, hold, ← matchingOf_eq_filter]
      rfl

theorem retry_equals_single_cycle_witness :
    (clientFailingAt7.FetchCurrentBlock = .ok 7 ∧ clientServing7.FetchCurrentBlock = .ok 7
      ∧ ledgerAt4.blockNumber < 7
      ∧ clientFailingAt7.FetchBlockByNumber 7 = .error (Error.Other "could not make request")
      ∧ (7 : Int) < maxInt64)
      ∧ (∃ f r s, processNewBlocks 3 clientFailingAt7 ["0x123"] ledgerAt4 = some f
            ∧ processNewBlocks 2 clientServing7 ["0x123"] f.repo = some r
            ∧ processNewBlocks 4 clientServing7 ["0x123"] ledgerAt4 = some s
            ∧ f.exit = .blockFetchFailed 7 ∧ r.exit = .committed ∧ s.exit = .committed
            ∧ r.repo.GetBlockNumber = s.repo.GetBlockNumber
            ∧ r.repo.GetBlockNumber = .ok 7
            ∧ (∀ v, r.repo.GetAddresses v = s.repo.GetAddresses v)
            ∧ (∀ a, r.repo.GetTransactions a = s.repo.GetTransactions a)
            ∧ (∀ a old, ledgerAt4.GetTransactions a = .ok old →
                r.repo.GetTransactions a
                  = .ok (old ++
                      ((blocksFrom chain567 (ledgerAt4.blockNumber + 1)
                          (7 - ledgerAt4.blockNumber).toNat).flatMap
                        fun blk => blk.Transactions).filter
                          (fun t => decide (t.From = a ∨ t.To = a)))))
      ∧ (processNewBlocks 4 clientServing7 ["0x123"] ledgerAt4).map
            (fun s => s.repo.GetTransactions "0x123")
          = some (.ok [seedTransaction, txOfBlock5]) :=
  have hok : ∀ k, ledgerAt4.blockNumber < k → k < 7 →
      clientFailingAt7.FetchBlockByNumber k = .ok (chain567 k) := by
    intro k _ hk
    have hne : ¬ k = 7 := by omega
    simp only [clientFailingAt7, hne, if_false]
  have h := retry_equals_single_cycle ledgerAt4 clientFailingAt7 clientServing7 7 7 7 chain567
    (Error.Other "could not make request") rfl rfl (by decide) (by decide) (by decide) hok rfl
    (fun _ _ _ => rfl)
  ⟨⟨rfl, rfl, by decide, rfl, by decide⟩,
    h.2.2 (by decide) 3 ["0x123"] 2 ["0x123"] 4 ["0x123"] (by decide) (by decide) (by decide),
    by decide⟩

/-! ## C7: a tick with nothing to do -/

/-- C7.  If the head fetch fails, or it returns `H` with `H ≤ C` where `C` is the checkpoint,
the cycle returns without a turn of its loop, asks the client for no block and returns the
ledger as it was: checkpoint, registered addresses and every bucket are unchanged. -/
theorem idle_tick_is_noop (fuel : Nat) (c : Client) (visit : List String)
    (repo : inMemRepository) (C : Int)
    (hC : repo.GetBlockNumber = .ok C)
    (h : (∃ e, c.FetchCurrentBlock = .error e)
      ∨ (∃ H, c.FetchCurrentBlock = .ok H ∧ H ≤ C)) :
    ∃ res, processNewBlocks fuel c visit repo = some res
      ∧ res.requested = []
      ∧ res.repo = repo
      ∧ res.repo.GetBlockNumber = .ok C
      ∧ (∀ v, res.repo.GetAddresses v = repo.GetAddresses v)
      ∧ ∀ a, res.repo.GetTransactions a = repo.GetTransactions a := by
  have hCeq : repo.blockNumber = C := by
    have : (Except.ok repo.blockNumber : Except Error Int) = Except.ok C := hC
    injection this
  rcases h with ⟨e, he⟩ | ⟨H, hH, hle⟩
  · exact ⟨_, processNewBlocks_idle_of_error fuel c visit repo e he, rfl, rfl, hC,
      fun _ => rfl, fun _ => rfl⟩
  · exact ⟨_, processNewBlocks_idle_of_le fuel c visit repo H hH (hCeq ▸ hle), rfl, rfl, hC,
      fun _ => rfl, fun _ => rfl⟩

theorem idle_tick_is_noop_witness :
    (ledgerAt4.GetBlockNumber = .ok 4 ∧ clientHead3.FetchCurrentBlock = .ok 3 ∧ (3 : Int) ≤ 4)
      ∧ ∃ res, processNewBlocks 0 clientHead3 ["0x123"] ledgerAt4 = some res
          ∧ res.requested = []
          ∧ res.repo = ledgerAt4 :=
  have h := idle_tick_is_noop 0 clientHead3 ["0x123"] ledgerAt4 4 rfl
    (Or.inr ⟨3, rfl, by decide⟩)
  ⟨⟨rfl, rfl, by decide⟩, h.imp fun _ hx => ⟨hx.1, hx.2.1, hx.2.2.1⟩⟩

/-! ## C8: the startup step -/

/-- C8.  With a head `H`, `updateBlockNumber` succeeds, sets the checkpoint to exactly `H`,
asks for no block and changes no address and no bucket, and `ProcessNewBlocks` runs its
cycles from that ledger; if the head fetch fails, `ProcessNewBlocks` returns an error, runs
no cycle, and the ledger, hence the checkpoint, is unchanged. -/
theorem bootstrap_policy (fuel : Nat) (boot : Client) (ticks : List (Client × List String))
    (repo : inMemRepository) :
    (∀ H, boot.FetchCurrentBlock = .ok H →
        (updateBlockNumber boot repo).2.2 = none
          ∧ (updateBlockNumber boot repo).2.1 = []
          ∧ (updateBlockNumber boot repo).1.GetBlockNumber = .ok H
          ∧ (∀ v, (updateBlockNumber boot repo).1.GetAddresses v = repo.GetAddresses v)
          ∧ (∀ a, (updateBlockNumber boot repo).1.GetTransactions a = repo.GetTransactions a)
          ∧ ProcessNewBlocks fuel boot ticks repo
              = (tickLoop fuel ticks (updateBlockNumber boot repo).1).map
                  (fun out => (out.1, out.2, none))
          ∧ ProcessNewBlocks fuel boot [] repo
              = some ((updateBlockNumber boot repo).1, [], none))
      ∧ (∀ e, boot.FetchCurrentBlock = .error e →
          ∃ err, ProcessNewBlocks fuel boot ticks repo = some (repo, [], some err)
            ∧ (ProcessNewBlocks fuel boot ticks repo).map (fun out => out.1.GetBlockNumber)
                = some repo.GetBlockNumber) := by
  constructor
  · intro H hH
    have hu : updateBlockNumber boot repo = ({ repo with blockNumber := H }, [], none) := by
      simp only [updateBlockNumber, hH, inMemRepository.SetBlockNumber]
    refine ⟨?_, ?_, ?_, ?_, ?_, ?_, ?_⟩
    · rw [hu]
    · rw [hu]
    · rw [hu]; rfl
    · intro v; rw [hu]; rfl
    · intro a; rw [hu]; rfl
    · simp only [ProcessNewBlocks, hu]
      cases tickLoop fuel ticks { repo with blockNumber := H } with
      | none => rfl
      | some out => rfl
    · simp only [ProcessNewBlocks, hu, tickLoop]
  · intro e he
    have hu : updateBlockNumber boot repo
        = (repo, [], some (Error.Wrap "could not fetch current block number" e)) := by
      simp only [updateBlockNumber, he]
    refine ⟨Error.Wrap "could not fetch current block number" e, ?_, ?_⟩
    · simp only [ProcessNewBlocks, hu]
    · simp only [ProcessNewBlocks, hu, Option.map_some']

theorem bootstrap_policy_witness :
    (clientHead5.FetchCurrentBlock = .ok 5
      ∧ NewInmemTransactionRepository.GetBlockNumber = .ok 0)
      ∧ (updateBlockNumber clientHead5 NewInmemTransactionRepository).1.GetBlockNumber = .ok 5
      ∧ (ProcessNewBlocks 0 clientHead5 [] NewInmemTransactionRepository).map
            (fun out => out.1.GetBlockNumber) = some (.ok 5)
      ∧ (∃ err, ProcessNewBlocks 0 clientDown [(clientHead5, [])]
            NewInmemTransactionRepository
          = some (NewInmemTransactionRepository, [], some err)) :=
  have h := bootstrap_policy 0 clientHead5 [] NewInmemTransactionRepository
  have h2 := bootstrap_policy 0 clientDown [(clientHead5, [])] NewInmemTransactionRepository
  ⟨⟨rfl, rfl⟩, (h.1 5 rfl).2.2.1,
    by rw [(h.1 5 rfl).2.2.2.2.2.2, Option.map_some', (h.1 5 rfl).2.2.1],
    (h2.2 (Error.Other "could not make request") rfl).imp fun _ hx => hx.1⟩

/-! ## C9 and C10: registering an address -/

theorem AddAddress_registered (repo : inMemRepository) (a : String)
    (h : a ∈ repo.addresses.keys) :
    repo.AddAddress a = (repo, some errs.AlreadyExistErr) := by
  unfold inMemRepository.AddAddress SyncMap.LoadOrStore
  simp only [h, dif_pos]

theorem AddAddress_unregistered (repo : inMemRepository) (a : String)
    (h : ¬ a ∈ repo.addresses.keys) :
    (repo.AddAddress a).2 = none
      ∧ (repo.AddAddress a).1.addresses.keys = repo.addresses.keys ++ [a] := by
  unfold inMemRepository.AddAddress SyncMap.LoadOrStore
  simp only [h, dif_neg, not_false_eq_true, and_self]

theorem AddAddress_keys_subset (repo : inMemRepository) (a x : String)
    (hx : x ∈ repo.addresses.keys) : x ∈ (repo.AddAddress a).1.addresses.keys := by
  by_cases h : a ∈ repo.addresses.keys
  · rw [AddAddress_registered repo a h]
    exact hx
  · rw [(AddAddress_unregistered repo a h).2]
    exact List.mem_append_left _ hx

/-- In a reachable ledger only registered addresses have a bucket with content. -/
theorem reachable_unregistered_empty (repo : inMemRepository) (h : Reachable repo) :
    ∀ x, ¬ x ∈ repo.addresses.keys → repo.bucket x = [] := by
  induction h with
  | fresh =>
    intro x hx
    rw [fresh_bucket]
    have hne : ¬ x = "0x123" := by
      intro he
      apply hx
      rw [he]
      decide
    rw [if_neg hne]
  | register repo address _ ih =>
    intro x hx
    rw [AddAddress_bucket]
    exact ih x (fun hm => hx (AddAddress_keys_subset repo address x hm))
  | bootstrap repo c _ ih =>
    intro x hx
    rw [updateBlockNumber_bucket]
    rw [(updateBlockNumber_frame c repo).2] at hx
    exact ih x hx
  | cycle repo c fuel visit res _ hres ih =>
    intro x hx
    obtain ⟨ha, blocks, hb⟩ := processNewBlocks_general fuel c visit repo res hres
    rw [ha] at hx
    rw [hb x, if_neg hx, ih x hx]
    rfl

/-- C9.  `AddAddress(a)` fails with the `AlreadyExist` error exactly when `a` is already
registered; otherwise it succeeds, `a` is registered afterwards (and listed by
`GetAddresses`, in whatever order it lists), and, in every ledger state the program can
reach, `GetTransactions(a)` then returns an empty list without error. -/
theorem registration_raises_iff (repo : inMemRepository) (a : String) :
    ((repo.AddAddress a).2 = some errs.AlreadyExistErr ↔ repo.registered a)
      ∧ (∀ err, (repo.AddAddress a).2 = some err → errs.IsAlreadyExistErr err = true)
      ∧ (¬ repo.registered a →
          (repo.AddAddress a).2 = none
            ∧ (repo.AddAddress a).1.registered a
            ∧ (∀ v, ∃ l, (repo.AddAddress a).1.GetAddresses v = .ok l ∧ a ∈ l))
      ∧ (Reachable repo → ¬ repo.registered a →
          (repo.AddAddress a).1.GetTransactions a = .ok []) := by
  by_cases h : a ∈ repo.addresses.keys
  · have hr : repo.registered a := h
    rw [AddAddress_registered repo a h]
    refine ⟨⟨fun _ => hr, fun _ => rfl⟩, ?_, fun hn => absurd hr hn, fun _ hn => absurd hr hn⟩
    intro err he
    have : errs.AlreadyExistErr = err := by injection he
    rw [← this]
    rfl
  · have hr : ¬ repo.registered a := h
    obtain ⟨h1, h2⟩ := AddAddress_unregistered repo a h
    have hreg : a ∈ (repo.AddAddress a).1.addresses.keys := by
      rw [h2]
      exact List.mem_append_right _ (List.mem_singleton.mpr rfl)
    refine ⟨⟨?_, fun hx => absurd hx hr⟩, ?_, fun _ => ⟨h1, hreg, ?_⟩, ?_⟩
    · intro he
      rw [h1] at he
      cases he
    · intro err he
      rw [h1] at he
      cases he
    · intro v
      exact ⟨_, rfl, (mem_Range _ v a).mpr hreg⟩
    · intro hreach _
      rw [GetTransactions_eq, if_pos hreg, AddAddress_bucket,
        reachable_unregistered_empty repo hreach a h]

theorem registration_raises_iff_witness :
    (Reachable NewInmemTransactionRepository
      ∧ ¬ NewInmemTransactionRepository.registered "0x456"
      ∧ NewInmemTransactionRepository.registered "0x123")
      ∧ (NewInmemTransactionRepository.AddAddress "0x456").2 = none
      ∧ (NewInmemTransactionRepository.AddAddress "0x456").1.GetTransactions "0x456" = .ok []
      ∧ (NewInmemTransactionRepository.AddAddress "0x123").2 = some errs.AlreadyExistErr :=
  have h := registration_raises_iff NewInmemTransactionRepository "0x456"
  have h2 := registration_raises_iff NewInmemTransactionRepository "0x123"
  ⟨⟨Reachable.fresh, by decide, by decide⟩, (h.2.2.1 (by decide)).1,
    h.2.2.2 Reachable.fresh (by decide), h2.1.mpr (by decide)⟩

/-- C10.  When `a` is already registered, `AddAddress(a)` returns the `AlreadyExist` error and
the ledger it leaves is the ledger it found: the bucket of `a`, every other bucket, the
registered addresses and the checkpoint are the same before and after. -/
theorem resubscription_leaves_ledger (repo : inMemRepository) (a : String)
    (h : repo.registered a) :
    (repo.AddAddress a).2 = some errs.AlreadyExistErr
      ∧ (∀ err, (repo.AddAddress a).2 = some err → errs.IsAlreadyExistErr err = true)
      ∧ (repo.AddAddress a).1 = repo
      ∧ (∀ x, (repo.AddAddress a).1.GetTransactions x = repo.GetTransactions x)
      ∧ (∀ v, (repo.AddAddress a).1.GetAddresses v = repo.GetAddresses v)
      ∧ (repo.AddAddress a).1.GetBlockNumber = repo.GetBlockNumber := by
  rw [AddAddress_registered repo a h]
  refine ⟨rfl, ?_, rfl, fun _ => rfl, fun _ => rfl, rfl⟩
  intro err he
  have : errs.AlreadyExistErr = err := by injection he
  rw [← this]
  rfl

theorem resubscription_leaves_ledger_witness :
    NewInmemTransactionRepository.registered "0x123"
      ∧ (NewInmemTransactionRepository.AddAddress "0x123").2 = some errs.AlreadyExistErr
      ∧ (NewInmemTransactionRepository.AddAddress "0x123").1.GetTransactions "0x123"
          = .ok [seedTransaction]
      ∧ (NewInmemTransactionRepository.AddAddress "0x123").1.GetAddresses ["0x123"]
          = .ok ["0x123"] :=
  have h := resubscription_leaves_ledger NewInmemTransactionRepository "0x123" (by decide)
  ⟨by decide, h.1, (h.2.2.2.1 "0x123").trans (by decide),
    (h.2.2.2.2.1 ["0x123"]).trans (by decide)⟩

/-! ## C11: not found against empty -/

/-- C11.  `GetTransactions(a)` fails exactly when `a` is not registered, and then with the
`NotFound` error; for a registered address whose bucket holds no transaction it succeeds with
an empty list. -/
theorem not_found_versus_empty (repo : inMemRepository) (a : String) :
    (repo.GetTransactions a = .error errs.NotFoundErr ↔ ¬ repo.registered a)
      ∧ (∀ err, repo.GetTransactions a = .error err →
          err = errs.NotFoundErr ∧ errs.IsNotFoundErr err = true ∧ ¬ repo.registered a)
      ∧ (repo.registered a → ∃ txs, repo.GetTransactions a = .ok txs)
      ∧ (repo.registered a → repo.bucket a = [] → repo.GetTransactions a = .ok []) := by
  rw [GetTransactions_eq]
  by_cases h : a ∈ repo.addresses.keys
  · have hr : repo.registered a := h
    rw [if_pos h]
    refine ⟨⟨fun he => (by cases he), fun hn => absurd hr hn⟩, ?_, fun _ => ⟨_, rfl⟩, ?_⟩
    · intro err he
      cases he
    · intro _ hb
      rw [hb]
  · have hr : ¬ repo.registered a := h
    rw [if_neg h]
    refine ⟨⟨fun _ => hr, fun _ => rfl⟩, ?_, fun hx => absurd hx hr, fun hx => absurd hx hr⟩
    intro err he
    have : Error.NotFound = err := by injection he
    subst this
    exact ⟨rfl, rfl, hr⟩

theorem not_found_versus_empty_witness :
    (ledgerOfTest.registered "0x123" ∧ ledgerOfTest.bucket "0x123" = []
      ∧ ¬ ledgerOfTest.registered "0x456")
      ∧ ledgerOfTest.GetTransactions "0x123" = .ok []
      ∧ ledgerOfTest.GetTransactions "0x456" = .error errs.NotFoundErr :=
  have h := not_found_versus_empty ledgerOfTest "0x123"
  have h2 := not_found_versus_empty ledgerOfTest "0x456"
  ⟨⟨by decide, by decide, by decide⟩, h.2.2.2 (by decide) (by decide), h2.1.mpr (by decide)⟩

/-! ## C12 and C13: appending a transaction -/

theorem append_order_aux (repo : inMemRepository) (a : String) (t : Transaction)
    (h : repo.registered a) :
    (repo.AddTransaction a t).2 = none
      ∧ ∀ old, repo.GetTransactions a = .ok old →
          (repo.AddTransaction a t).1.GetTransactions a = .ok (old ++ [t]) := by
  have ha : a ∈ repo.addresses.keys := h
  obtain ⟨h1, h2, _, h4⟩ := AddTransaction_registered repo a t ha
  refine ⟨h1, ?_⟩
  intro old hold
  rw [GetTransactions_eq, if_pos ha] at hold
  have hb : repo.bucket a = old := by injection hold
  rw [GetTransactions_eq, h2, if_pos ha, h4 a, if_pos rfl, hb]

/-- C12.  For a registered address `a`, `AddTransaction(a, t)` succeeds; afterwards
`GetTransactions(a)` returns the sequence it returned before followed by `t`, which is its
last element; the bucket of every other address, the registered addresses and the checkpoint
are unchanged. -/
theorem append_order (repo : inMemRepository) (a : String) (t : Transaction)
    (h : repo.registered a) :
    (repo.AddTransaction a t).2 = none
      ∧ (∀ old, repo.GetTransactions a = .ok old →
          (repo.AddTransaction a t).1.GetTransactions a = .ok (old ++ [t])
            ∧ (old ++ [t]).getLast? = some t)
      ∧ (∀ x, x ≠ a →
          (repo.AddTransaction a t).1.GetTransactions x = repo.GetTransactions x)
      ∧ (∀ v, (repo.AddTransaction a t).1.GetAddresses v = repo.GetAddresses v)
      ∧ (repo.AddTransaction a t).1.GetBlockNumber = repo.GetBlockNumber := by
  have ha : a ∈ repo.addresses.keys := h
  obtain ⟨h1, h2, h3, h4⟩ := AddTransaction_registered repo a t ha
  refine ⟨h1, ?_, ?_, ?_, ?_⟩
  · intro old hold
    rw [GetTransactions_eq, if_pos ha] at hold
    have hb : repo.bucket a = old := by injection hold
    refine ⟨?_, by simp⟩
    rw [GetTransactions_eq, h2, if_pos ha, h4 a, if_pos rfl, hb]
  · intro x hx
    rw [GetTransactions_eq, GetTransactions_eq, h2, h4 x, if_neg hx]
  · intro v
    simp only [inMemRepository.GetAddresses, h2]
  · simp only [inMemRepository.GetBlockNumber, h3]

theorem append_order_witness :
    (ledgerOfTest.registered "0x123" ∧ ledgerOfTest.GetTransactions "0x123" = .ok [])
      ∧ (ledgerOfTest.AddTransaction "0x123" txHash1).2 = none
      ∧ (ledgerOfTest.AddTransaction "0x123" txHash1).1.GetTransactions "0x123"
          = .ok [txHash1] :=
  have h := append_order ledgerOfTest "0x123" txHash1 (by decide)
  ⟨⟨by decide, by decide⟩, h.1, (h.2.1 [] (by decide)).1⟩

/-- C13.  For an unregistered address `a`, `AddTransaction(a, t)` fails with the `NotFound`
error and returns the repository as it found it: `a` stays unregistered, and no bucket, no
address and not the checkpoint changes. -/
theorem append_to_unknown_rejected (repo : inMemRepository) (a : String) (t : Transaction)
    (h : ¬ repo.registered a) :
    (repo.AddTransaction a t).2 = some errs.NotFoundErr
      ∧ (∀ err, (repo.AddTransaction a t).2 = some err → errs.IsNotFoundErr err = true)
      ∧ (repo.AddTransaction a t).1 = repo
      ∧ ¬ (repo.AddTransaction a t).1.registered a
      ∧ (∀ x, (repo.AddTransaction a t).1.GetTransactions x = repo.GetTransactions x)
      ∧ (∀ v, (repo.AddTransaction a t).1.GetAddresses v = repo.GetAddresses v)
      ∧ (repo.AddTransaction a t).1.GetBlockNumber = repo.GetBlockNumber := by
  have ha : ¬ a ∈ repo.addresses.keys := h
  have he : repo.AddTransaction a t = (repo, some errs.NotFoundErr) := by
    unfold inMemRepository.AddTransaction SyncMap.Load
    simp only [ha, decide_False, if_true]
  rw [he]
  refine ⟨rfl, ?_, rfl, h, fun _ => rfl, fun _ => rfl, rfl⟩
  intro err hx
  have : errs.NotFoundErr = err := by injection hx
  rw [← this]
  rfl

theorem append_to_unknown_rejected_witness :
    ¬ ledgerOfTest.registered "0x456"
      ∧ (ledgerOfTest.AddTransaction "0x456" txHash1).2 = some errs.NotFoundErr
      ∧ (ledgerOfTest.AddTransaction "0x456" txHash1).1.GetTransactions "0x456"
          = .error errs.NotFoundErr
      ∧ (ledgerOfTest.AddTransaction "0x456" txHash1).1.GetTransactions "0x123" = .ok [] :=
  have h := append_to_unknown_rejected ledgerOfTest "0x456" txHash1 (by decide)
  ⟨by decide, h.1, (h.2.2.2.2.1 "0x456").trans (by decide),
    (h.2.2.2.2.1 "0x123").trans (by decide)⟩

/-! ## C14: the write scope -/

theorem scope_call_eq (repo : inMemRepository) (c : ScopeCall) :
    (inMemTransaction.call ⟨repo⟩ c).1 = ⟨(repo.call c).1⟩
      ∧ (inMemTransaction.call ⟨repo⟩ c).2 = (repo.call c).2 := by
  cases c with
  | AddTransaction address transaction => exact ⟨rfl, rfl⟩
  | SetBlockNumber blockNumber => exact ⟨rfl, rfl⟩

theorem scope_calls_eq :
    ∀ (cs : List ScopeCall) (repo : inMemRepository),
      (inMemTransaction.calls ⟨repo⟩ cs).inMemRepository = repo.calls cs := by
  intro cs
  induction cs with
  | nil => intro repo; rfl
  | cons c rest ih =>
    intro repo
    simp only [inMemTransaction.calls, inMemRepository.calls, (scope_call_eq repo c).1]
    exact ih _

/-- C14.  A scope obtained from `NewTransaction` is the ledger itself.  After any sequence of
`AddTransaction` and `SetBlockNumber` calls made through it, the ledger holds exactly what
the same calls made on the ledger directly produce; `Commit` and `Rollback` both return
success and leave checkpoint, addresses and buckets as those calls left them; an append or a
checkpoint write made through the scope is read back by the ledger's `GetTransactions` and
`GetBlockNumber` at once, before `Commit`, and still after `Rollback`. -/
theorem commit_and_rollback_undo_nothing (repo : inMemRepository) (cs : List ScopeCall) :
    repo.NewTransaction = .ok ⟨repo⟩
      ∧ (inMemTransaction.calls ⟨repo⟩ cs).inMemRepository = repo.calls cs
      ∧ (inMemTransaction.calls ⟨repo⟩ cs).Commit = (inMemTransaction.calls ⟨repo⟩ cs, none)
      ∧ (inMemTransaction.calls ⟨repo⟩ cs).Rollback = (inMemTransaction.calls ⟨repo⟩ cs, none)
      ∧ ((inMemTransaction.calls ⟨repo⟩ cs).Commit).1.inMemRepository = repo.calls cs
      ∧ ((inMemTransaction.calls ⟨repo⟩ cs).Rollback).1.inMemRepository = repo.calls cs
      ∧ (∀ a t old, (repo.calls cs).GetTransactions a = .ok old →
          ((inMemTransaction.calls ⟨repo⟩ cs).AddTransaction a t).1.inMemRepository.GetTransactions a
              = .ok (old ++ [t])
            ∧ (((inMemTransaction.calls ⟨repo⟩ cs).AddTransaction a t).1.Rollback).1.inMemRepository.GetTransactions
                a = .ok (old ++ [t]))
      ∧ (∀ n,
          ((inMemTransaction.calls ⟨repo⟩ cs).SetBlockNumber n).1.inMemRepository.GetBlockNumber
              = .ok n
            ∧ (((inMemTransaction.calls ⟨repo⟩ cs).SetBlockNumber n).1.Rollback).1.inMemRepository.GetBlockNumber
                = .ok n) := by
  have hs := scope_calls_eq cs repo
  refine ⟨rfl, hs, rfl, rfl, hs, hs, ?_, fun n => ⟨rfl, rfl⟩⟩
  intro a t old hold
  have hreg : (repo.calls cs).registered a := by
    by_contra hn
    have hn1 : ¬ a ∈ (repo.calls cs).addresses.keys := hn
    rw [GetTransactions_eq, if_neg hn1] at hold
    cases hold
  have key : ((inMemTransaction.calls ⟨repo⟩ cs).AddTransaction a t).1.inMemRepository
      = ((repo.calls cs).AddTransaction a t).1 := by
    simp only [inMemTransaction.AddTransaction, hs]
  have hget := ((append_order_aux (repo.calls cs) a t hreg).2 old hold)
  exact ⟨by rw [key]; exact hget, by
    show ((inMemTransaction.calls ⟨repo⟩ cs).AddTransaction a t).1.inMemRepository.GetTransactions
      a = _
    rw [key]; exact hget⟩

theorem commit_and_rollback_undo_nothing_witness :
    (((inMemTransaction.calls ⟨ledgerOfTest⟩
          [.AddTransaction "0x123" txHash1, .SetBlockNumber 8]).Rollback).2 = none
      ∧ ((inMemTransaction.calls ⟨ledgerOfTest⟩
          [.AddTransaction "0x123" txHash1, .SetBlockNumber 8]).Commit).2 = none)
      ∧ ((inMemTransaction.calls ⟨ledgerOfTest⟩
          [.AddTransaction "0x123" txHash1, .SetBlockNumber 8]).Rollback).1.inMemRepository.GetTransactions
            "0x123" = .ok [txHash1]
      ∧ ((inMemTransaction.calls ⟨ledgerOfTest⟩
          [.AddTransaction "0x123" txHash1, .SetBlockNumber 8]).Rollback).1.inMemRepository.GetBlockNumber
            = .ok 8 :=
  have h := commit_and_rollback_undo_nothing ledgerOfTest
    [.AddTransaction "0x123" txHash1, .SetBlockNumber 8]
  ⟨⟨congrArg Prod.snd h.2.2.2.1, congrArg Prod.snd h.2.2.1⟩,
    (congrArg (fun r => inMemRepository.GetTransactions r "0x123") h.2.2.2.2.2.1).trans
      (by decide),
    (congrArg inMemRepository.GetBlockNumber h.2.2.2.2.2.1).trans (by decide)⟩

/-! ## C15: listing the addresses -/

theorem httpError_spec (w : ResponseRecorder) (msg : String) (code : Nat)
    (hw : w.wroteHeader = false) :
    (httpError w msg code).Code = code
      ∧ (httpError w msg code).Body = w.Body ++ [Written.text (msg ++ "\n")] := by
  simp [httpError, ResponseRecorder.setContentType, ResponseRecorder.WriteHeader,
    ResponseRecorder.Write, hw]

theorem httpError_json_spec (w : ResponseRecorder) (msg : String) (code : Nat)
    (hw : w.wroteHeader = false) :
    (httpError (w.setContentType "application/json") msg code).Code = code
      ∧ (httpError (w.setContentType "application/json") msg code).Body
          = w.Body ++ [Written.text (msg ++ "\n")] :=
  httpError_spec (w.setContentType "application/json") msg code hw

theorem encode_spec (w : ResponseRecorder) (v : Json) (hw : w.wroteHeader = false) :
    (encode (w.setContentType "application/json") v).2 = none
      ∧ (encode (w.setContentType "application/json") v).1.Code = 200
      ∧ (encode (w.setContentType "application/json") v).1.Body = w.Body ++ [Written.json v]
      ∧ (encode (w.setContentType "application/json") v).1.ContentType
          = some "application/json" := by
  simp [encode, ResponseRecorder.setContentType, ResponseRecorder.WriteHeader,
    ResponseRecorder.Write, hw]

/-- `errors.Is` finds `target` exactly in the errors that are `target` or wrap it. -/
theorem Error.Is_iff (err target : Error) :
    err.Is target = true ↔ Error.isOrWraps err target := by
  constructor
  · intro h
    induction err with
    | NotFound =>
      have : Error.NotFound = target := by simpa [Error.Is] using h
      rw [← this]
      exact Error.isOrWraps.self _
    | AlreadyExist =>
      have : Error.AlreadyExist = target := by simpa [Error.Is] using h
      rw [← this]
      exact Error.isOrWraps.self _
    | Other msg =>
      have : Error.Other msg = target := by simpa [Error.Is] using h
      rw [← this]
      exact Error.isOrWraps.self _
    | Wrap msg cause ih =>
      have h1 : Error.Wrap msg cause = target ∨ cause.Is target = true := by
        simpa [Error.Is] using h
      rcases h1 with h1 | h1
      · rw [← h1]
        exact Error.isOrWraps.self _
      · exact Error.isOrWraps.wrap msg cause target (ih h1)
  · intro h
    induction h with
    | self e =>
      cases e <;> simp [Error.Is]
    | wrap msg cause target _ ih =>
      simp [Error.Is, ih]

/-- C16.  The subscribe handler, writing to a response on which no header was sent yet,
answers 405 when the method is not POST; otherwise 400, without calling the service, when the
`address` query parameter is empty; otherwise it calls `Subscribe` once with that address
and answers 409 when the returned error is the `AlreadyExist` error or wraps it, 500 for any
other error (the `NotFound` error and an error made from a message among them), and 200
with the body `{"msg":"success"}` when no error is returned. -/
theorem subscribe_status_mapping {σ : Type} (txParser : TransactionParser σ) (svc : σ)
    (w : ResponseRecorder) (r : Request) (hw : w.wroteHeader = false) :
    (r.Method ≠ "POST" →
        (subscribeToAddress txParser svc w r).w.Code = 405
          ∧ (subscribeToAddress txParser svc w r).calls = [])
      ∧ (r.Method = "POST" → r.queryGet "address" = "" →
          (subscribeToAddress txParser svc w r).w.Code = 400
            ∧ (subscribeToAddress txParser svc w r).calls = [])
      ∧ (r.Method = "POST" → r.queryGet "address" ≠ "" →
          (subscribeToAddress txParser svc w r).calls = [.Subscribe (r.queryGet "address")]
            ∧ ((txParser.Subscribe svc (r.queryGet "address")).2 = some errs.AlreadyExistErr →
                (subscribeToAddress txParser svc w r).w.Code = 409)
            ∧ (∀ err, (txParser.Subscribe svc (r.queryGet "address")).2 = some err →
                (Error.isOrWraps err Error.AlreadyExist →
                    (subscribeToAddress txParser svc w r).w.Code = 409)
                  ∧ (¬ Error.isOrWraps err Error.AlreadyExist →
                    (subscribeToAddress txParser svc w r).w.Code = 500))
            ∧ ((txParser.Subscribe svc (r.queryGet "address")).2 = none →
                (subscribeToAddress txParser svc w r).w.Code = 200
                  ∧ (subscribeToAddress txParser svc w r).w.Body
                      = w.Body ++ [Written.json (Json.obj [("msg", Json.str "success")])])) := by
  refine ⟨?_, ?_, ?_⟩
  · intro hm
    simp only [subscribeToAddress, hm, ne_eq, not_false_eq_true, if_true]
    exact ⟨(httpError_spec w _ 405 hw).1, trivial⟩
  · intro hm ha
    simp only [subscribeToAddress, hm, ne_eq, not_true_eq_false, if_false, ha, if_true]
    exact ⟨(httpError_json_spec w _ 400 hw).1, trivial⟩
  · intro hm ha
    simp only [subscribeToAddress, hm, ne_eq, not_true_eq_false, if_false, ha]
    generalize txParser.Subscribe svc (r.queryGet "address") = res
    obtain ⟨svc1, e⟩ := res
    cases e with
    | none =>
      refine ⟨rfl, fun he => (by cases he), fun err he => (by cases he), fun _ => ?_⟩
      have hen := encode_spec w (Response.toJson ⟨"success", none⟩) hw
      exact ⟨hen.2.1, hen.2.2.1⟩
    | some e0 =>
      by_cases hx : errs.IsAlreadyExistErr e0 = true
      · simp only [hx, if_true]
        refine ⟨trivial, fun _ => (httpError_json_spec w _ 409 hw).1, ?_,
          fun he => (by cases he)⟩
        intro err he
        have : e0 = err := by injection he
        subst this
        exact ⟨fun _ => (httpError_json_spec w _ 409 hw).1,
          fun hf => absurd ((Error.Is_iff e0 Error.AlreadyExist).mp hx) hf⟩
      · simp only [hx, if_false]
        refine ⟨rfl, ?_, ?_, fun he => (by cases he)⟩
        · intro he
          have : e0 = errs.AlreadyExistErr := by injection he
          exact absurd (this ▸ (by decide : errs.IsAlreadyExistErr errs.AlreadyExistErr = true))
            hx
        · intro err he
          have : e0 = err := by injection he
          subst this
          exact ⟨fun ht => absurd ((Error.Is_iff e0 Error.AlreadyExist).mpr ht) hx,
            fun _ => (httpError_json_spec w _ 500 hw).1⟩

theorem subscribe_status_mapping_witness :
    NewRecorder.wroteHeader = false
      ∧ (subscribeToAddress (MockTxParser 0 none none none) () NewRecorder
          (requestWithAddress "POST" "0x123")).w.Code = 200
      ∧ (subscribeToAddress (MockTxParser 0 none (some errs.AlreadyExistErr) none) ()
          NewRecorder (requestWithAddress "POST" "0x123")).w.Code = 409
      ∧ (subscribeToAddress (MockTxParser 0 none none none) () NewRecorder
          (requestWithAddress "POST" "")).w.Code = 400
      ∧ (subscribeToAddress (MockTxParser 0 none none none) () NewRecorder
          (requestWithAddress "GET" "0x123")).w.Code = 405
      ∧ (subscribeToAddress transactionParser NewInmemTransactionRepository NewRecorder
          (requestWithAddress "POST" "0x123")).w.Code = 409
      ∧ (subscribeToAddress
          (MockTxParser 0 none (some (Error.Wrap "subscribe" errs.AlreadyExistErr)) none) ()
          NewRecorder (requestWithAddress "POST" "0x123")).w.Code = 409
      ∧ (subscribeToAddress (MockTxParser 0 none (some (Error.Other "boom")) none) ()
          NewRecorder (requestWithAddress "POST" "0x123")).w.Code = 500
      ∧ (subscribeToAddress (MockTxParser 0 none (some errs.NotFoundErr) none) ()
          NewRecorder (requestWithAddress "POST" "0x123")).w.Code = 500 :=
  have h1 := subscribe_status_mapping (MockTxParser 0 none none none) () NewRecorder
    (requestWithAddress "POST" "0x123") rfl
  have h2 := subscribe_status_mapping (MockTxParser 0 none (some errs.AlreadyExistErr) none) ()
    NewRecorder (requestWithAddress "POST" "0x123") rfl
  have h3 := subscribe_status_mapping (MockTxParser 0 none none none) () NewRecorder
    (requestWithAddress "POST" "") rfl
  have h4 := subscribe_status_mapping (MockTxParser 0 none none none) () NewRecorder
    (requestWithAddress "GET" "0x123") rfl
  have h5 := subscribe_status_mapping transactionParser NewInmemTransactionRepository
    NewRecorder (requestWithAddress "POST" "0x123") rfl
  have h6 := subscribe_status_mapping
    (MockTxParser 0 none (some (Error.Wrap "subscribe" errs.AlreadyExistErr)) none) ()
    NewRecorder (requestWithAddress "POST" "0x123") rfl
  have h7 := subscribe_status_mapping (MockTxParser 0 none (some (Error.Other "boom")) none) ()
    NewRecorder (requestWithAddress "POST" "0x123") rfl
  have h8 := subscribe_status_mapping (MockTxParser 0 none (some errs.NotFoundErr) none) ()
    NewRecorder (requestWithAddress "POST" "0x123") rfl
  ⟨rfl, ((h1.2.2 rfl (by decide)).2.2.2 rfl).1,
    (h2.2.2 rfl (by decide)).2.1 rfl,
    (h3.2.1 rfl (by decide)).1, (h4.1 (by decide)).1,
    (h5.2.2 rfl (by decide)).2.1 (by decide),
    ((h6.2.2 rfl (by decide)).2.2.1 _ rfl).1
      (Error.isOrWraps.wrap _ _ _ (Error.isOrWraps.self _)),
    ((h7.2.2 rfl (by decide)).2.2.1 _ rfl).2 (fun h => (by cases h)),
    ((h8.2.2 rfl (by decide)).2.2.1 _ rfl).2 (fun h => (by cases h))⟩

/-- C17.  The transactions handler, writing to a response on which no header was sent yet,
answers 405 when the method is not GET; otherwise 400, without calling the service, when the
`address` query parameter is empty; otherwise it calls `GetTransactions` once with that
address and answers 404 when the returned error is the `NotFound` error or wraps it, 500 for
any other error (the `AlreadyExist` error and an error made from a message among them), and,
when no error is returned, 200 with the returned transactions in the same order,
each with the fields `hash`, `from`, `to`, `value`, `blockNumber`. -/
theorem transactions_status_mapping {σ : Type} (txParser : TransactionParser σ) (svc : σ)
    (w : ResponseRecorder) (r : Request) (hw : w.wroteHeader = false) :
    (r.Method ≠ "GET" →
        (getTransactionsByAddress txParser svc w r).w.Code = 405
          ∧ (getTransactionsByAddress txParser svc w r).calls = [])
      ∧ (r.Method = "GET" → r.queryGet "address" = "" →
          (getTransactionsByAddress txParser svc w r).w.Code = 400
            ∧ (getTransactionsByAddress txParser svc w r).calls = [])
      ∧ (r.Method = "GET" → r.queryGet "address" ≠ "" →
          (getTransactionsByAddress txParser svc w r).calls
              = [.GetTransactions (r.queryGet "address")]
            ∧ ((txParser.GetTransactions svc (r.queryGet "address")).2.2
                  = some errs.NotFoundErr →
                (getTransactionsByAddress txParser svc w r).w.Code = 404)
            ∧ (∀ err, (txParser.GetTransactions svc (r.queryGet "address")).2.2 = some err →
                (Error.isOrWraps err Error.NotFound →
                    (getTransactionsByAddress txParser svc w r).w.Code = 404)
                  ∧ (¬ Error.isOrWraps err Error.NotFound →
                    (getTransactionsByAddress txParser svc w r).w.Code = 500))
            ∧ ((txParser.GetTransactions svc (r.queryGet "address")).2.2 = none →
                (getTransactionsByAddress txParser svc w r).w.Code = 200)
            ∧ (∀ txs, (txParser.GetTransactions svc (r.queryGet "address")).2
                  = (some txs, none) →
                (getTransactionsByAddress txParser svc w r).w.Code = 200
                  ∧ (getTransactionsByAddress txParser svc w r).w.Body
                      = w.Body ++ [Written.json (Json.obj [("msg", Json.str "success"),
                          ("data", Json.obj [("transactions",
                            Json.arr (txs.map fun t =>
                              Json.obj [("hash", Json.str t.Hash), ("from", Json.str t.From),
                                ("to", Json.str t.To), ("value", Json.str t.Value),
                                ("blockNumber", Json.str t.BlockNumber)]))])])])) := by
  refine ⟨?_, ?_, ?_⟩
  · intro hm
    simp only [getTransactionsByAddress, hm, ne_eq, not_false_eq_true, if_true]
    exact ⟨(httpError_spec w _ 405 hw).1, trivial⟩
  · intro hm ha
    simp only [getTransactionsByAddress, hm, ne_eq, not_true_eq_false, if_false, ha, if_true]
    exact ⟨(httpError_json_spec w _ 400 hw).1, trivial⟩
  · intro hm ha
    simp only [getTransactionsByAddress, hm, ne_eq, not_true_eq_false, if_false, ha]
    generalize txParser.GetTransactions svc (r.queryGet "address") = res
    obtain ⟨svc1, transactions, e⟩ := res
    cases e with
    | none =>
      refine ⟨rfl, fun he => (by cases he), fun err he => (by cases he), fun _ =>
        (encode_spec w (Response.toJson ⟨"success",
          some (Json.obj [("transactions", transactionsToJson transactions)])⟩) hw).2.1,
        fun txs htx => ?_⟩
      have ht : transactions = some txs := by
        have := congrArg Prod.fst htx
        exact this
      subst ht
      have hen := encode_spec w (Response.toJson
        ⟨"success", some (Json.obj [("transactions", transactionsToJson (some txs))])⟩) hw
      exact ⟨hen.2.1, hen.2.2.1⟩
    | some e0 =>
      by_cases hx : errs.IsNotFoundErr e0 = true
      · simp only [hx, if_true]
        refine ⟨trivial, fun _ => (httpError_json_spec w _ 404 hw).1, ?_,
          fun he => (by cases he), fun txs he => (by cases he)⟩
        intro err he
        have : e0 = err := by injection he
        subst this
        exact ⟨fun _ => (httpError_json_spec w _ 404 hw).1,
          fun hf => absurd ((Error.Is_iff e0 Error.NotFound).mp hx) hf⟩
      · simp only [hx, if_false]
        refine ⟨rfl, ?_, ?_, fun he => (by cases he), fun txs he => (by cases he)⟩
        · intro he
          have : e0 = errs.NotFoundErr := by injection he
          exact absurd (this ▸ (by decide : errs.IsNotFoundErr errs.NotFoundErr = true)) hx
        · intro err he
          have : e0 = err := by injection he
          subst this
          exact ⟨fun ht => absurd ((Error.Is_iff e0 Error.NotFound).mpr ht) hx,
            fun _ => (httpError_json_spec w _ 500 hw).1⟩

theorem transactions_status_mapping_witness :
    NewRecorder.wroteHeader = false
      ∧ (getTransactionsByAddress (MockTxParser 0 (some [txHash1]) none none) () NewRecorder
          (requestWithAddress "GET" "0x123")).w.Code = 200
      ∧ (getTransactionsByAddress (MockTxParser 0 (some [txHash1]) none none) () NewRecorder
          (requestWithAddress "GET" "0x123")).w.Body
          = [Written.json (Json.obj [("msg", Json.str "success"),
              ("data", Json.obj [("transactions",
                Json.arr [Json.obj [("hash", Json.str "hash1"), ("from", Json.str "from1"),
                  ("to", Json.str "to1"), ("value", Json.str "100"),
                  ("blockNumber", Json.str "1")]])])])]
      ∧ (getTransactionsByAddress (MockTxParser 0 none none (some errs.NotFoundErr)) ()
          NewRecorder (requestWithAddress "GET" "0x123")).w.Code = 404
      ∧ (getTransactionsByAddress transactionParser NewInmemTransactionRepository NewRecorder
          (requestWithAddress "GET" "0x456")).w.Code = 404
      ∧ (getTransactionsByAddress (MockTxParser 0 none none none) () NewRecorder
          (requestWithAddress "GET" "")).w.Code = 400
      ∧ (getTransactionsByAddress
          (MockTxParser 0 none none (some (Error.Wrap "transactions" errs.NotFoundErr))) ()
          NewRecorder (requestWithAddress "GET" "0x123")).w.Code = 404
      ∧ (getTransactionsByAddress (MockTxParser 0 none none (some (Error.Other "boom"))) ()
          NewRecorder (requestWithAddress "GET" "0x123")).w.Code = 500
      ∧ (getTransactionsByAddress (MockTxParser 0 none none (some errs.AlreadyExistErr)) ()
          NewRecorder (requestWithAddress "GET" "0x123")).w.Code = 500 :=
  have h1 := transactions_status_mapping (MockTxParser 0 (some [txHash1]) none none) ()
    NewRecorder (requestWithAddress "GET" "0x123") rfl
  have h2 := transactions_status_mapping (MockTxParser 0 none none (some errs.NotFoundErr)) ()
    NewRecorder (requestWithAddress "GET" "0x123") rfl
  have h3 := transactions_status_mapping transactionParser NewInmemTransactionRepository
    NewRecorder (requestWithAddress "GET" "0x456") rfl
  have h4 := transactions_status_mapping (MockTxParser 0 none none none) () NewRecorder
    (requestWithAddress "GET" "") rfl
  have h5 := transactions_status_mapping
    (MockTxParser 0 none none (some (Error.Wrap "transactions" errs.NotFoundErr))) ()
    NewRecorder (requestWithAddress "GET" "0x123") rfl
  have h6 := transactions_status_mapping
    (MockTxParser 0 none none (some (Error.Other "boom"))) ()
    NewRecorder (requestWithAddress "GET" "0x123") rfl
  have h7 := transactions_status_mapping
    (MockTxParser 0 none none (some errs.AlreadyExistErr)) ()
    NewRecorder (requestWithAddress "GET" "0x123") rfl
  ⟨rfl, ((h1.2.2 rfl (by decide)).2.2.2.2 [txHash1] rfl).1,
    ((h1.2.2 rfl (by decide)).2.2.2.2 [txHash1] rfl).2,
    (h2.2.2 rfl (by decide)).2.1 rfl,
    (h3.2.2 rfl (by decide)).2.1 (by decide),
    (h4.2.1 rfl (by decide)).1,
    ((h5.2.2 rfl (by decide)).2.2.1 _ rfl).1
      (Error.isOrWraps.wrap _ _ _ (Error.isOrWraps.self _)),
    ((h6.2.2 rfl (by decide)).2.2.1 _ rfl).2 (fun h => (by cases h)),
    ((h7.2.2 rfl (by decide)).2.2.1 _ rfl).2 (fun h => (by cases h))⟩

/-! ## C20: block numbers in hexadecimal, there and back -/

theorem digitVal_of_hex (c : Char) (h : isHexDigit c = true) :
    digitVal c = some (hexDigitValue c) ∧ hexDigitValue c < 16 := by
  simp only [isHexDigit, decide_eq_true_eq] at h
  unfold digitVal hexDigitValue
  rcases h with h | h | h
  · have h2 : c.toNat ≤ 57 := h.2
    rw [if_pos h, if_pos h2]
    exact ⟨rfl, by omega⟩
  · have h1 : ¬ (48 ≤ c.toNat ∧ c.toNat ≤ 57) := by omega
    have h2 : 97 ≤ c.toNat ∧ c.toNat ≤ 122 := by omega
    have h3 : ¬ c.toNat ≤ 57 := by omega
    have h4 : 97 ≤ c.toNat := h.1
    rw [if_neg h1, if_pos h2, if_neg h3, if_pos h4]
    exact ⟨congrArg some (by omega), by omega⟩
  · have h1 : ¬ (48 ≤ c.toNat ∧ c.toNat ≤ 57) := by omega
    have h2 : ¬ (97 ≤ c.toNat ∧ c.toNat ≤ 122) := by omega
    have h3 : 65 ≤ c.toNat ∧ c.toNat ≤ 90 := by omega
    have h4 : ¬ c.toNat ≤ 57 := by omega
    have h5 : ¬ 97 ≤ c.toNat := by omega
    rw [if_neg h1, if_neg h2, if_pos h3, if_neg h4, if_neg h5]
    exact ⟨congrArg some (by omega), by omega⟩

theorem digitVal_of_not_hex (c : Char) (h : isHexDigit c = false) :
    digitVal c = none ∨ ∃ d, digitVal c = some d ∧ d ≥ 16 := by
  simp only [isHexDigit, decide_eq_false_iff_not] at h
  unfold digitVal
  by_cases h1 : 48 ≤ c.toNat ∧ c.toNat ≤ 57
  · exact absurd (Or.inl h1) h
  · simp only [h1, if_false]
    by_cases h2 : 97 ≤ c.toNat ∧ c.toNat ≤ 122
    · simp only [h2, and_self, if_true]
      right
      refine ⟨_, rfl, ?_⟩
      omega
    · simp only [h2, if_false]
      by_cases h3 : 65 ≤ c.toNat ∧ c.toNat ≤ 90
      · simp only [h3, and_self, if_true]
        right
        refine ⟨_, rfl, ?_⟩
        omega
      · simp only [h3, if_false]
        left
        trivial

theorem hexFold_cons (c : Char) (rest : List Char) (n : Nat) :
    hexFold (c :: rest) n = hexFold rest (n * 16 + hexDigitValue c) := rfl

theorem hexFold_ge : ∀ (digits : List Char) (n : Nat), n ≤ hexFold digits n := by
  intro digits
  induction digits with
  | nil => intro n; exact le_refl n
  | cons c rest ih =>
    intro n
    rw [hexFold_cons]
    have := ih (n * 16 + hexDigitValue c)
    omega

theorem parseUintLoop_cons_hex (c : Char) (rest : List Char) (n : Nat)
    (hc : isHexDigit c = true) :
    parseUintLoop (c :: rest) n
      = if n ≥ 2 ^ 60 then .error .Range
        else parseUintLoop rest (n * 16 + hexDigitValue c) := by
  obtain ⟨hd, hlt⟩ := digitVal_of_hex c hc
  rw [parseUintLoop]
  simp only [hd]
  have h16 : ¬ hexDigitValue c ≥ 16 := by omega
  rw [if_neg h16]
  by_cases hn : n ≥ 2 ^ 60
  · rw [if_pos hn, if_pos hn]
  · rw [if_neg hn, if_neg hn]
    have hmax : ¬ n * 16 + hexDigitValue c > 2 ^ 64 - 1 := by omega
    rw [if_neg hmax]

/-- On hexadecimal digits the digit loop of `ParseUint` computes the value the digits denote,
and reports a range error exactly when that value does not fit in 64 bits. -/
theorem parseUintLoop_of_hex :
    ∀ (digits : List Char) (n : Nat), (∀ c ∈ digits, isHexDigit c = true) → n < 2 ^ 64 →
      parseUintLoop digits n
        = if hexFold digits n < 2 ^ 64 then .ok (hexFold digits n) else .error .Range := by
  intro digits
  induction digits with
  | nil =>
    intro n _ hn
    have hf : hexFold [] n = n := rfl
    rw [hf, if_pos hn]
    rfl
  | cons c rest ih =>
    intro n hall hn
    have hc : isHexDigit c = true := hall c (List.mem_cons_self _ _)
    have hrest : ∀ x ∈ rest, isHexDigit x = true := fun x hx => hall x (List.mem_cons_of_mem _ hx)
    have hlt := (digitVal_of_hex c hc).2
    rw [parseUintLoop_cons_hex c rest n hc, hexFold_cons]
    by_cases h60 : n ≥ 2 ^ 60
    · rw [if_pos h60]
      have hge := hexFold_ge rest (n * 16 + hexDigitValue c)
      have hbig : ¬ hexFold rest (n * 16 + hexDigitValue c) < 2 ^ 64 := by omega
      rw [if_neg hbig]
    · rw [if_neg h60]
      exact ih (n * 16 + hexDigitValue c) hrest (by omega)

/-- A character that is not a hexadecimal digit makes the digit loop fail. -/
theorem parseUintLoop_of_not_hex :
    ∀ (digits : List Char) (n : Nat), (∃ c ∈ digits, isHexDigit c = false) →
      ∃ e, parseUintLoop digits n = .error e := by
  intro digits
  induction digits with
  | nil =>
    intro n h
    obtain ⟨c, hc, _⟩ := h
    exact absurd hc (List.not_mem_nil c)
  | cons c rest ih =>
    intro n h
    by_cases hc : isHexDigit c = true
    · have hrest : ∃ x ∈ rest, isHexDigit x = false := by
        obtain ⟨x, hx, hxf⟩ := h
        rcases List.mem_cons.mp hx with h0 | h1
        · rw [h0, hc] at hxf
          cases hxf
        · exact ⟨x, h1, hxf⟩
      rw [parseUintLoop_cons_hex c rest n hc]
      by_cases h60 : n ≥ 2 ^ 60
      · rw [if_pos h60]
        exact ⟨_, rfl⟩
      · rw [if_neg h60]
        exact ih _ hrest
    · have hcf : isHexDigit c = false := by
        cases hx : isHexDigit c with
        | true => exact absurd hx hc
        | false => rfl
      rw [parseUintLoop]
      rcases digitVal_of_not_hex c hcf with hd | ⟨d, hd, hge⟩
      · simp only [hd]
        exact ⟨_, rfl⟩
      · simp only [hd]
        rw [if_pos hge]
        exact ⟨_, rfl⟩

/-- `ParseUint16` against the definition of a base-16 number: it returns `un` exactly when
the characters are one or more hexadecimal digits that denote `un` and `un` fits in 64
bits. -/
theorem ParseUint16_ok_iff (digits : List Char) (un : Nat) :
    ParseUint16 digits = .ok un
      ↔ digits ≠ [] ∧ (∀ c ∈ digits, isHexDigit c = true) ∧ hexFold digits 0 = un
          ∧ un < 2 ^ 64 := by
  unfold ParseUint16
  by_cases he : digits = []
  · rw [if_pos he]
    constructor
    · intro h; cases h
    · intro h; exact absurd he h.1
  · rw [if_neg he]
    by_cases hall : ∀ c ∈ digits, isHexDigit c = true
    · rw [parseUintLoop_of_hex digits 0 hall (by norm_num)]
      by_cases hlt : hexFold digits 0 < 2 ^ 64
      · rw [if_pos hlt]
        constructor
        · intro h
          have : hexFold digits 0 = un := by injection h
          exact ⟨he, hall, this, this ▸ hlt⟩
        · intro h
          rw [h.2.2.1]
      · rw [if_neg hlt]
        constructor
        · intro h; cases h
        · intro h
          exact absurd (h.2.2.1 ▸ h.2.2.2) hlt
    · have hex : ∃ c ∈ digits, isHexDigit c = false := by
        by_contra hcon
        apply hall
        intro c hc
        cases hx : isHexDigit c with
        | true => rfl
        | false => exact absurd ⟨c, hc, hx⟩ hcon
      obtain ⟨e, hee⟩ := parseUintLoop_of_not_hex digits 0 hex
      rw [hee]
      constructor
      · intro h; cases h
      · intro h; exact absurd h.2.1 hall

theorem ParseInt16_of_error (c : Char) (rest : List Char) (e : NumError)
    (hp : ParseUint16 (if c = '+' ∨ c = '-' then rest else c :: rest) = .error e) :
    ParseInt16 (c :: rest) = .error e := by
  simp only [ParseInt16, hp]

theorem ParseInt16_of_ok (c : Char) (rest : List Char) (un : Nat)
    (hp : ParseUint16 (if c = '+' ∨ c = '-' then rest else c :: rest) = .ok un) :
    ParseInt16 (c :: rest)
      = if ¬ c = '-' ∧ un ≥ 2 ^ 63 then .error .Range
        else if c = '-' ∧ un > 2 ^ 63 then .error .Range
        else .ok (if c = '-' then -(un : Int) else (un : Int)) := by
  simp only [ParseInt16, hp]
  by_cases hc : c = '-'
  · simp [hc]
  · simp [hc]

theorem not_hex_plus : isHexDigit '+' = false := by decide

theorem not_hex_minus : isHexDigit '-' = false := by decide

/-- `ParseInt16` against the definition of a base-16 integer: it returns `v` exactly when
the characters are an optional sign followed by hexadecimal digits that denote `v`, and `v`
fits in 64 signed bits; on every other input it returns an error. -/
theorem ParseInt16_ok_iff (s : List Char) (v : Int) :
    ParseInt16 s = .ok v ↔ IsHexInt64 s v := by
  constructor
  · intro h
    cases s with
    | nil => simp [ParseInt16] at h
    | cons c rest =>
      cases hp : ParseUint16 (if c = '+' ∨ c = '-' then rest else c :: rest) with
      | error e =>
        rw [ParseInt16_of_error c rest e hp] at h
        cases h
      | ok un =>
        rw [ParseInt16_of_ok c rest un hp] at h
        obtain ⟨hne, hall, hval, hlt⟩ := (ParseUint16_ok_iff _ un).mp hp
        by_cases h1 : ¬ c = '-' ∧ un ≥ 2 ^ 63
        · rw [if_pos h1] at h
          cases h
        · rw [if_neg h1] at h
          by_cases h2 : c = '-' ∧ un > 2 ^ 63
          · rw [if_pos h2] at h
            cases h
          · rw [if_neg h2] at h
            have hv : (if c = '-' then -(un : Int) else (un : Int)) = v := by injection h
            by_cases hm : c = '-'
            · subst hm
              have hd : (if '-' = '+' ∨ '-' = '-' then rest else '-' :: rest) = rest := by
                simp
              rw [hd] at hne hall hval
              refine ⟨['-'], rest, rfl, Or.inr (Or.inr rfl), hne, hall, ?_, ?_, ?_⟩
              · rw [hval]
                simpa using hv.symm
              · simp only [if_true] at hv
                have : ¬ un > 2 ^ 63 := fun hx => h2 ⟨rfl, hx⟩
                omega
              · simp only [if_true] at hv
                omega
            · rw [if_neg hm] at hv
              have hun : ¬ un ≥ 2 ^ 63 := fun hx => h1 ⟨hm, hx⟩
              by_cases hpl : c = '+'
              · subst hpl
                have hd : (if '+' = '+' ∨ '+' = '-' then rest else '+' :: rest) = rest := by
                  simp
                rw [hd] at hne hall hval
                refine ⟨['+'], rest, rfl, Or.inr (Or.inl rfl), hne, hall, ?_, ?_, ?_⟩
                · rw [hval]
                  simpa using hv.symm
                · omega
                · omega
              · have hd : (if c = '+' ∨ c = '-' then rest else c :: rest) = c :: rest := by
                  simp [hpl, hm]
                rw [hd] at hne hall hval
                refine ⟨[], c :: rest, rfl, Or.inl rfl, hne, hall, ?_, ?_, ?_⟩
                · rw [hval]
                  simpa using hv.symm
                · omega
                · omega
  · rintro ⟨sign, digits, hs, hsign, hne, hall, hv, hlo, hhi⟩
    rcases hsign with h0 | hp | hm
    · subst h0
      cases digits with
      | nil => exact absurd rfl hne
      | cons c rest =>
        have hc : isHexDigit c = true := hall c (List.mem_cons_self _ _)
        have hnp : ¬ c = '+' := by
          intro he
          rw [he, not_hex_plus] at hc
          cases hc
        have hnm : ¬ c = '-' := by
          intro he
          rw [he, not_hex_minus] at hc
          cases hc
        simp only [List.nil_append] at hs
        subst hs
        have hv1 : v = (hexFold (c :: rest) 0 : Int) := by simpa using hv
        have hd : (if c = '+' ∨ c = '-' then rest else c :: rest) = c :: rest := by
          simp [hnp, hnm]
        have hpu : ParseUint16 (if c = '+' ∨ c = '-' then rest else c :: rest)
            = .ok (hexFold (c :: rest) 0) := by
          rw [hd]
          exact (ParseUint16_ok_iff _ _).mpr ⟨hne, hall, rfl, by omega⟩
        rw [ParseInt16_of_ok c rest _ hpu]
        have h1 : ¬ (¬ c = '-' ∧ hexFold (c :: rest) 0 ≥ 2 ^ 63) := by
          intro hx
          have := hx.2
          omega
        have h2 : ¬ (c = '-' ∧ hexFold (c :: rest) 0 > 2 ^ 63) := fun hx => hnm hx.1
        rw [if_neg h1, if_neg h2, if_neg hnm, hv1]
    · subst hp
      subst hs
      have hv1 : v = (hexFold digits 0 : Int) := by simpa using hv
      have hd : (if '+' = '+' ∨ '+' = '-' then digits else '+' :: digits) = digits := by simp
      have hpu : ParseUint16 (if '+' = '+' ∨ '+' = '-' then digits else '+' :: digits)
          = .ok (hexFold digits 0) := by
        rw [hd]
        exact (ParseUint16_ok_iff _ _).mpr ⟨hne, hall, rfl, by omega⟩
      show ParseInt16 ('+' :: digits) = .ok v
      rw [ParseInt16_of_ok '+' digits _ hpu]
      have hnm : ¬ '+' = '-' := by decide
      have h1 : ¬ (¬ '+' = '-' ∧ hexFold digits 0 ≥ 2 ^ 63) := by
        intro hx
        have := hx.2
        omega
      have h2 : ¬ ('+' = '-' ∧ hexFold digits 0 > 2 ^ 63) := fun hx => hnm hx.1
      rw [if_neg h1, if_neg h2, if_neg hnm, hv1]
    · subst hm
      subst hs
      have hv1 : v = -(hexFold digits 0 : Int) := by simpa using hv
      have hd : (if '-' = '+' ∨ '-' = '-' then digits else '-' :: digits) = digits := by simp
      have hpu : ParseUint16 (if '-' = '+' ∨ '-' = '-' then digits else '-' :: digits)
          = .ok (hexFold digits 0) := by
        rw [hd]
        exact (ParseUint16_ok_iff _ _).mpr ⟨hne, hall, rfl, by omega⟩
      show ParseInt16 ('-' :: digits) = .ok v
      rw [ParseInt16_of_ok '-' digits _ hpu]
      have h1 : ¬ (¬ '-' = '-' ∧ hexFold digits 0 ≥ 2 ^ 63) := fun hx => hx.1 rfl
      have h2 : ¬ ('-' = '-' ∧ hexFold digits 0 > 2 ^ 63) := by
        intro hx
        have := hx.2
        omega
      rw [if_neg h1, if_neg h2, if_pos rfl, hv1]

theorem hexChar_spec : ∀ d, d < 16 →
    isHexDigit (hexChar d) = true ∧ hexDigitValue (hexChar d) = d := by
  decide

theorem fmtHexLoop_spec :
    ∀ (fuel u : Nat) (acc : List Char), u < 16 ^ (fuel + 1) →
      (∀ c ∈ acc, isHexDigit c = true) →
      fmtHexLoop fuel u acc ≠ []
        ∧ (∀ c ∈ fmtHexLoop fuel u acc, isHexDigit c = true)
        ∧ hexFold (fmtHexLoop fuel u acc) 0 = hexFold acc u := by
  intro fuel
  induction fuel with
  | zero =>
    intro u acc hu hacc
    have hu16 : u < 16 := by simpa using hu
    obtain ⟨h1, h2⟩ := hexChar_spec u hu16
    refine ⟨by simp [fmtHexLoop], ?_, ?_⟩
    · intro c hc
      rcases List.mem_cons.mp hc with h0 | h0
      · rw [h0]; exact h1
      · exact hacc c h0
    · show hexFold (hexChar u :: acc) 0 = hexFold acc u
      rw [hexFold_cons, h2]
      simp
  | succ fuel ih =>
    intro u acc hu hacc
    by_cases hge : u ≥ 16
    · have hstep : fmtHexLoop (fuel + 1) u acc
          = fmtHexLoop fuel (u / 16) (hexChar (u % 16) :: acc) := by
        rw [fmtHexLoop, if_pos hge]
      obtain ⟨h1, h2⟩ := hexChar_spec (u % 16) (Nat.mod_lt u (by norm_num))
      have hacc1 : ∀ c ∈ hexChar (u % 16) :: acc, isHexDigit c = true := by
        intro c hc
        rcases List.mem_cons.mp hc with h0 | h0
        · rw [h0]; exact h1
        · exact hacc c h0
      have hu1 : u / 16 < 16 ^ (fuel + 1) := by
        rw [Nat.div_lt_iff_lt_mul (by norm_num)]
        calc u < 16 ^ (fuel + 1 + 1) := hu
          _ = 16 ^ (fuel + 1) * 16 := by rw [pow_succ]
      obtain ⟨i1, i2, i3⟩ := ih (u / 16) _ hu1 hacc1
      rw [hstep]
      refine ⟨i1, i2, ?_⟩
      rw [i3, hexFold_cons, h2]
      congr 1
      omega
    · have hu16 : u < 16 := by omega
      have hstep : fmtHexLoop (fuel + 1) u acc = hexChar u :: acc := by
        rw [fmtHexLoop, if_neg hge]
      obtain ⟨h1, h2⟩ := hexChar_spec u hu16
      rw [hstep]
      refine ⟨by simp, ?_, ?_⟩
      · intro c hc
        rcases List.mem_cons.mp hc with h0 | h0
        · rw [h0]; exact h1
        · exact hacc c h0
      · rw [hexFold_cons, h2]
        simp

theorem fmtHex_spec (u : Nat) (hu : u < 2 ^ 64) :
    fmtHex u ≠ [] ∧ (∀ c ∈ fmtHex u, isHexDigit c = true) ∧ hexFold (fmtHex u) 0 = u := by
  have hlt : u < 16 ^ (16 + 1) := by
    have : (2 : Nat) ^ 64 < 16 ^ (16 + 1) := by norm_num
    omega
  obtain ⟨h1, h2, h3⟩ := fmtHexLoop_spec 16 u [] hlt (fun c hc => absurd hc (List.not_mem_nil c))
  exact ⟨h1, h2, h3⟩

theorem formatBlockParam_remainder (n : Int) :
    removeFirst0x (formatBlockParam n).toList
      = (if n < 0 then ['-'] else []) ++ fmtHex n.natAbs := by
  have h : (formatBlockParam n).toList
      = '0' :: 'x' :: ((if n < 0 then ['-'] else []) ++ fmtHex n.natAbs) := rfl
  rw [h]
  simp [removeFirst0x]

theorem decodeBlockNumber_ok_iff (s : String) (v : Int) :
    decodeBlockNumber s = .ok v ↔ IsHexInt64 (removeFirst0x s.toList) v := by
  rw [← ParseInt16_ok_iff]
  unfold decodeBlockNumber
  cases hp : ParseInt16 (removeFirst0x s.toList) with
  | error e =>
    cases e with
    | Syntax => simp
    | Range => simp
  | ok w => simp

/-- C20.  For every integer `n` that fits in 64 signed bits, decoding the block parameter
`FetchBlockByNumber` sends for `n` (`0x`, then `n` in lowercase hexadecimal) with the result
decoding of `FetchCurrentBlock` succeeds and yields `n`.  The decoding returns a value exactly
when what is left after removing the first `0x` is a base-16 integer in 64-bit range, and then
that integer; for every other string, the empty one among them, it returns an error. -/
theorem block_number_hex_round_trip :
    (∀ n : Int, -(2 : Int) ^ 63 ≤ n → n < (2 : Int) ^ 63 →
        decodeBlockNumber (formatBlockParam n) = .ok n)
      ∧ (∀ (s : String) (v : Int),
          decodeBlockNumber s = .ok v ↔ IsHexInt64 (removeFirst0x s.toList) v)
      ∧ (∀ s : String, (¬ ∃ v, IsHexInt64 (removeFirst0x s.toList) v) →
          ∃ e, decodeBlockNumber s = .error e)
      ∧ (∃ e, decodeBlockNumber "" = .error e) := by
  refine ⟨?_, decodeBlockNumber_ok_iff, ?_,
    ⟨Error.Wrap "error parsing block number" (Error.Other "invalid syntax"), by decide⟩⟩
  · intro n hlo hhi
    rw [decodeBlockNumber_ok_iff, formatBlockParam_remainder]
    obtain ⟨h1, h2, h3⟩ := fmtHex_spec n.natAbs (by omega)
    by_cases hneg : n < 0
    · rw [if_pos hneg]
      refine ⟨['-'], fmtHex n.natAbs, rfl, Or.inr (Or.inr rfl), h1, h2, ?_, hlo, hhi⟩
      rw [if_pos rfl, h3]
      omega
    · rw [if_neg hneg]
      refine ⟨[], fmtHex n.natAbs, rfl, Or.inl rfl, h1, h2, ?_, hlo, hhi⟩
      rw [if_neg (by simp), h3]
      omega
  · intro s hnot
    cases hd : decodeBlockNumber s with
    | error e => exact ⟨e, rfl⟩
    | ok v => exact absurd ⟨v, (decodeBlockNumber_ok_iff s v).mp hd⟩ hnot

theorem block_number_hex_round_trip_witness :
    (-(2 : Int) ^ 63 ≤ 19000000 ∧ (19000000 : Int) < (2 : Int) ^ 63)
      ∧ formatBlockParam 19000000 = "0x121eac0"
      ∧ decodeBlockNumber (formatBlockParam 19000000) = .ok 19000000
      ∧ decodeBlockNumber (formatBlockParam (-(2 : Int) ^ 63)) = .ok (-(2 : Int) ^ 63)
      ∧ (∃ e, decodeBlockNumber "0xzz" = .error e) :=
  have h := block_number_hex_round_trip
  have hz : decodeBlockNumber "0xzz"
      = .error (Error.Wrap "error parsing block number" (Error.Other "invalid syntax")) := by
    decide
  ⟨⟨by decide, by decide⟩, by decide, h.1 19000000 (by decide) (by decide),
    h.1 (-(2 : Int) ^ 63) (by decide) (by decide),
    h.2.2.1 "0xzz" (fun hx => hx.elim fun v hv => by
      have hok := (h.2.1 "0xzz" v).mpr hv
      rw [hz] at hok
      cases hok)⟩

/-! ## Two registrations of one address, one after the other -/

/-- Of two `AddAddress` calls for an unregistered address that take effect one after the
other, the first succeeds, the second returns the `AlreadyExist` error, and the address is
listed once.  (Both calls are the same, so this is either order.) -/
theorem double_registration (repo : inMemRepository) (a : String) (h : ¬ repo.registered a) :
    (repo.AddAddress a).2 = none
      ∧ ((repo.AddAddress a).1.AddAddress a).2 = some errs.AlreadyExistErr
      ∧ ((repo.AddAddress a).1.AddAddress a).1.addresses.keys.count a = 1 := by
  have ha : ¬ a ∈ repo.addresses.keys := h
  obtain ⟨h1, h2⟩ := AddAddress_unregistered repo a ha
  have hreg : a ∈ (repo.AddAddress a).1.addresses.keys := by
    rw [h2]
    exact List.mem_append_right _ (List.mem_singleton.mpr rfl)
  rw [AddAddress_registered _ a hreg]
  exact ⟨h1, rfl, List.count_eq_one_of_mem (repo.AddAddress a).1.addresses.nodup hreg⟩

end TxParser
